import Mathlib

/-!
# Verification of the variant-build core (`src/repair/project.py`)

Shallow embedding of the program-repair variant-build module: the `Project`
base class (backup / restore / diff / configure / compilation-database
import), the environment-scoped build executor (`build_in_env`,
`build_with_cc`), and the four variant builders (`Validation`, `Frontend`,
`Backend`, `Golden`).

Modelling conventions:
* The filesystem is a map from path strings to file contents; a file's
  content is its list of lines (`readlines` is the identity on this
  abstraction, line terminators are abstracted away).
* External processes (`subprocess.check_output` on the build command, and
  the `angelix-patch-bitcode` invocation) are an abstract `Oracle`: given
  the working directory, command, stderr policy, environment and current
  filesystem they return the new filesystem and the exit code.
* Python exceptions are explicit: fallible operations return an
  `Option PyErr` component (`KeyError` for unguarded dict indexing,
  `CompilationError` from `project.py`, `TypeError` from `os.path.relpath`
  applied to a non-path).
* Log calls are recorded as an explicit list of `LogMsg` values, one
  constructor per `logger.…` call site, carrying the formatted arguments.
* `tempfile.mkdtemp` freshness is modelled by a counter in `World`.
* `os.environ` is the `procEnv` field of `World`; `dict(env)` copying is
  value copying, and a Python in-place dict update `env[k] = v` on a copy
  is `envSet`.
-/

namespace Angelix

/-- `posixpath.join` for two arguments: if `b` is absolute (starts with
`/`) it wins, otherwise `b` is appended with a `/` separator unless `a`
is empty or already ends in `/`.  (The `startswith`/`endswith` tests are
phrased on the first/last character.) -/
def joinS (a b : String) : String :=
  if b.data.head? = some '/' then b
  else if a = "" ∨ a.data.getLast? = some '/' then a ++ b
  else a ++ "/" ++ b

/-- `posixpath.basename`: the part after the last `/`. -/
def basenameS (s : String) : String := (s.splitOn "/").getLastD ""

/-- A process environment, as an association list; the binding closest to
the head wins, so Python's `env[k] = v` is modelled by consing. -/
abbrev Env := List (String × String)

/-- Python `env[k] = v` on a dict (only lookups are observed later, so a
shadowing cons is an adequate model of in-place update on a fresh copy). -/
def envSet (e : Env) (k v : String) : Env := (k, v) :: e

/-- Python `env.get(k)` / `env[k]`. -/
def envGet (e : Env) (k : String) : Option String := List.lookup k e

/-- The filesystem: absent paths map to `none`, a present file to its
list of lines. -/
abbrev FS := String → Option (List String)

/-- Write (or delete, with `none`) one path. -/
def fsSet (fs : FS) (p : String) (v : Option (List String)) : FS :=
  fun q => if q = p then v else fs q

/-- Global mutable state threaded through the embedding: the filesystem,
a counter making `tempfile.mkdtemp` results fresh, and `os.environ`. -/
structure World where
  fs : FS
  tmp : Nat
  procEnv : Env

/-- One constructor per `logger.…` call site in `project.py`, carrying the
formatted arguments (paths are recorded unshortened; `os.path.relpath`
against the process cwd only affects presentation). -/
inductive LogMsg where
  | info (s : String)
  | warnCompilation (dir : String)
  | warnFailedToBuild (path : String)
  | warnPatching (path : String)
  | errorFailedDependency (test dep : String)
  deriving DecidableEq

/-- Python exceptions that can escape the modelled operations. -/
inductive PyErr where
  | keyError
  | compilationError
  | typeError
  deriving DecidableEq

/-- Behaviour of the external tools: `run` is `subprocess.check_output` of
a shell command in a working directory with a given stderr policy and
environment (returning the new filesystem and the exit code), `patch` is
the `angelix-patch-bitcode` executable applied to one `.bc` path. -/
structure Oracle where
  run : String → String → Bool → Env → FS → FS × Nat
  patch : String → FS → FS × Nat

/-- The `build` sub-step a test case may declare in the tests spec. -/
structure TestBuildSpec where
  directory : String
  command : String
  deriving DecidableEq

/-- One entry of `tests_spec`: an optional build sub-step and the
executable path (`'build' in self.tests_spec[t]` is `Option`-presence). -/
structure TestEntry where
  build : Option TestBuildSpec
  executable : String
  deriving DecidableEq

/-- The constructor arguments of `Project` (`config['verbose']` is the
only configuration read). -/
structure ProjectData where
  verbose : Bool
  dir : String
  buggy : String
  build_cmd : String
  configure_cmd : Option String
  tests_spec : List (String × TestEntry)

/-- `self.stderr`: `true` means suppressed (`subprocess.DEVNULL`),
`false` means inherited (`None`), per the verbosity flag. -/
def stderrOf (p : ProjectData) : Bool := !p.verbose

/-- `join(self.dir, self.buggy)`. -/
def buggyPath (p : ProjectData) : String := joinS p.dir p.buggy

/-- `self._buggy_backup = join(self.dir, self.buggy) + '.backup'`. -/
def backupPath (p : ProjectData) : String := joinS p.dir p.buggy ++ ".backup"

/-- The backup step of `Project.__init__`:
`shutil.copyfile(join(dir, buggy), backup)`; `none` models the
`FileNotFoundError` when the buggy file does not exist. -/
def mkProject (p : ProjectData) (w : World) : Option World :=
  match w.fs (buggyPath p) with
  | none => none
  | some content => some { w with fs := fsSet w.fs (backupPath p) (some content) }

/-- `Project.restore_buggy`: `shutil.copyfile(backup, join(dir, buggy))`. -/
def restore_buggy (p : ProjectData) (w : World) : Option World :=
  match w.fs (backupPath p) with
  | none => none
  | some content => some { w with fs := fsSet w.fs (buggyPath p) (some content) }

/-- External mutations of the buggy file between builds (the repair search
writing candidate patches): each element overwrites (or with `none`
deletes) the buggy file. -/
def applyMutations (p : ProjectData) (w : World) (ms : List (Option (List String))) : World :=
  ms.foldl (fun w m => { w with fs := fsSet w.fs (buggyPath p) m }) w

/-- `tempfile.mkdtemp()`: a fresh private directory per call. -/
def tmpName (n : Nat) : String := "/tmp/angelix" ++ toString n

/-- Result of one executor invocation.  `childEnv` and `exitCode` expose,
for specification purposes, the environment actually passed to the child
process and its exit status; they are observables of the call, not extra
state. -/
structure BuildOut where
  w : World
  log : List LogMsg
  childEnv : Env
  exitCode : Nat

/-- `build_in_env(dir, cmd, stderr, env)`: allocate a fresh temp dir,
point `ANGELIX_COMPILER_MESSAGES` into it in a copy of `env`, run the
command, convert a non-zero exit into a warning (the
`except CalledProcessError` branch), then report one warning per line of
the messages file if it exists.  The function is total: no exception
escapes this code path. -/
def build_in_env (O : Oracle) (dir cmd : String) (stderr : Bool) (env : Env) (w : World) :
    BuildOut :=
  let dirpath := tmpName w.tmp
  let messages := joinS dirpath "messages"
  let environment := envSet env "ANGELIX_COMPILER_MESSAGES" messages
  let res := O.run dir cmd stderr environment w.fs
  let log1 : List LogMsg := if res.2 ≠ 0 then [.warnCompilation dir] else []
  let log2 : List LogMsg :=
    match res.1 messages with
    | some lines => lines.map (fun l => .warnFailedToBuild l.trim)
    | none => []
  { w := { w with fs := res.1, tmp := w.tmp + 1 },
    log := log1 ++ log2, childEnv := environment, exitCode := res.2 }

/-- `build_with_cc`: override `CC` in a copy of `os.environ` and delegate.
The Python default argument `env=os.environ` of `build_in_env` is modelled
by callers passing `w.procEnv` explicitly. -/
def build_with_cc (O : Oracle) (dir cmd : String) (stderr : Bool) (cc : String) (w : World) :
    BuildOut :=
  let env := envSet w.procEnv "CC" cc
  build_in_env O dir cmd stderr env w

/-- `Project.configure`.  When the configure command exits non-zero the
source's handler evaluates `relpath(dir)` where `dir` is the Python
*builtin function* (the method has no local named `dir`), so
`os.path.relpath` raises `TypeError` before `logger.warning` runs; the
exception propagates out of the handler. -/
def configure (O : Oracle) (p : ProjectData) (w : World) :
    World × List LogMsg × Option PyErr :=
  let log0 : List LogMsg := [.info ("configuring " ++ basenameS p.dir ++ " source")]
  match p.configure_cmd with
  | none => (w, log0, none)
  | some cmd =>
    let res := O.run p.dir cmd (stderrOf p) w.procEnv w.fs
    if res.2 ≠ 0 then
      ({ w with fs := res.1 }, log0, some .typeError)
    else
      ({ w with fs := res.1 }, log0, none)

/-- `Validation.build`. -/
def Validation.build (O : Oracle) (p : ProjectData) (w : World) : BuildOut :=
  build_in_env O p.dir p.build_cmd (stderrOf p) w.procEnv w

/-- `Frontend.build`. -/
def Frontend.build (O : Oracle) (p : ProjectData) (w : World) : BuildOut :=
  build_with_cc O p.dir p.build_cmd (stderrOf p) "angelix-compiler --test" w

/-- `Backend.build`. -/
def Backend.build (O : Oracle) (p : ProjectData) (w : World) : BuildOut :=
  build_with_cc O p.dir p.build_cmd (stderrOf p) "angelix-compiler --klee" w

/-- `Golden.build`. -/
def Golden.build (O : Oracle) (p : ProjectData) (w : World) : BuildOut :=
  build_with_cc O p.dir p.build_cmd (stderrOf p) "angelix-compiler --test" w

/-- The optional sub-build step of `Validation.build_test` (default
toolchain), factored so the intermediate state is nameable. -/
def Validation.subBuild (O : Oracle) (p : ProjectData) (w : World) (entry : TestEntry) :
    World × List LogMsg :=
  match entry.build with
  | some tb =>
    let out := build_in_env O (joinS p.dir tb.directory) tb.command (stderrOf p) w.procEnv w
    (out.w, out.log)
  | none => (w, [])

/-- The optional sub-build step of `Frontend.build_test` (`CC` overridden
to `angelix-compiler --test`). -/
def Frontend.subBuild (O : Oracle) (p : ProjectData) (w : World) (entry : TestEntry) :
    World × List LogMsg :=
  match entry.build with
  | some tb =>
    let out := build_with_cc O (joinS p.dir tb.directory) tb.command (stderrOf p)
      "angelix-compiler --test" w
    (out.w, out.log)
  | none => (w, [])

/-- The optional sub-build step of `Golden.build_test` (`CC` overridden
to `angelix-compiler --test`). -/
def Golden.subBuild (O : Oracle) (p : ProjectData) (w : World) (entry : TestEntry) :
    World × List LogMsg :=
  match entry.build with
  | some tb =>
    let out := build_with_cc O (joinS p.dir tb.directory) tb.command (stderrOf p)
      "angelix-compiler --test" w
    (out.w, out.log)
  | none => (w, [])

/-- `Validation.build_test`: unguarded `self.tests_spec[test_case]`
(`KeyError` on absence), optional sub-build with the default toolchain,
then the executable-existence check raising `CompilationError`. -/
def Validation.build_test (O : Oracle) (p : ProjectData) (w : World) (tc : String) :
    World × List LogMsg × Option PyErr :=
  match List.lookup tc p.tests_spec with
  | none => (w, [], some .keyError)
  | some entry =>
    let s1 := Validation.subBuild O p w entry
    let dependency := joinS p.dir entry.executable
    if s1.1.fs dependency = none then
      (s1.1, s1.2 ++ [.errorFailedDependency tc dependency], some .compilationError)
    else
      (s1.1, s1.2, none)

/-- `Frontend.build_test`: like Validation but the sub-build runs with
`CC` overridden to `angelix-compiler --test`. -/
def Frontend.build_test (O : Oracle) (p : ProjectData) (w : World) (tc : String) :
    World × List LogMsg × Option PyErr :=
  match List.lookup tc p.tests_spec with
  | none => (w, [], some .keyError)
  | some entry =>
    let s1 := Frontend.subBuild O p w entry
    let dependency := joinS p.dir entry.executable
    if s1.1.fs dependency = none then
      (s1.1, s1.2 ++ [.errorFailedDependency tc dependency], some .compilationError)
    else
      (s1.1, s1.2, none)

/-- `Golden.build_test`: identical contract to Frontend. -/
def Golden.build_test (O : Oracle) (p : ProjectData) (w : World) (tc : String) :
    World × List LogMsg × Option PyErr :=
  match List.lookup tc p.tests_spec with
  | none => (w, [], some .keyError)
  | some entry =>
    let s1 := Golden.subBuild O p w entry
    let dependency := joinS p.dir entry.executable
    if s1.1.fs dependency = none then
      (s1.1, s1.2 ++ [.errorFailedDependency tc dependency], some .compilationError)
    else
      (s1.1, s1.2, none)

/-- The optional sub-build step of `Backend.build_test`, factored so the
intermediate state is nameable in specifications. -/
def Backend.subBuild (O : Oracle) (p : ProjectData) (w : World) (entry : TestEntry) :
    World × List LogMsg :=
  match entry.build with
  | some tb =>
    let out := build_with_cc O (joinS p.dir tb.directory) tb.command (stderrOf p)
      "angelix-compiler --klee" w
    (out.w, out.log)
  | none => (w, [])

/-- `Backend.build_test`: sub-build in klee mode, `.bc` existence check,
bitcode patch attempt (a non-zero patcher exit is only a warning), then
the `.patched.bc` existence check. -/
def Backend.build_test (O : Oracle) (p : ProjectData) (w : World) (tc : String) :
    World × List LogMsg × Option PyErr :=
  match List.lookup tc p.tests_spec with
  | none => (w, [], some .keyError)
  | some entry =>
    let s1 := Backend.subBuild O p w entry
    let executable := joinS p.dir entry.executable
    let dependency := executable ++ ".bc"
    if s1.1.fs dependency = none then
      (s1.1, s1.2 ++ [.errorFailedDependency tc dependency], some .compilationError)
    else
      let patched_dependency := executable ++ ".patched.bc"
      let pres := O.patch dependency s1.1.fs
      let w2 : World := { s1.1 with fs := pres.1 }
      let log2 := s1.2 ++ (if pres.2 ≠ 0 then [.warnPatching dependency] else [])
      if w2.fs patched_dependency = none then
        (w2, log2 ++ [.errorFailedDependency tc patched_dependency], some .compilationError)
      else
        (w2, log2, none)

/-! ## Compilation database

Records are modelled at the granularity `posixpath.relpath` itself works
at: a canonical absolute path is its list of `/`-separated components
(no empty, `.` or `..` components).  `relpathC`/`joinC` are
`posixpath.relpath`/`os.path.join` on this representation; in particular
`join` performs no normalisation, and `relpath` of a path against itself
is `["."]` (Python's `os.curdir`). -/

/-- One record of `compile_commands.json`. -/
structure CRecord where
  directory : List String
  file : List String
  command : String
  deriving DecidableEq

/-- Length of the common component prefix (the `zip`-scan in
`posixpath.relpath`). -/
def commonPrefixLen : List String → List String → Nat
  | x :: xs, y :: ys => if x = y then commonPrefixLen xs ys + 1 else 0
  | _, _ => 0

/-- `posixpath.relpath path start` on canonical absolute component lists:
`..` for each uncommon component of `start`, then the uncommon tail of
`path`; `["."]` when that is empty. -/
def relpathC (path start : List String) : List String :=
  let i := commonPrefixLen path start
  let rel := List.replicate (start.length - i) ".." ++ path.drop i
  if rel = [] then ["."] else rel

/-- `os.path.join start rel` for a relative `rel`: plain concatenation of
components (no normalisation of `.` or `..`). -/
def joinC (start rel : List String) : List String := start ++ rel

/-- The per-record rewrite of `Validation.export_compilation_db` (paths
made relative to the project root). -/
def exportRecord (root : List String) (r : CRecord) : CRecord :=
  { r with directory := relpathC r.directory root, file := relpathC r.file root }

/-- The per-record rewrite of `Project.import_compilation_db` (paths made
absolute under the root, `' -I' + LLVM3_INCLUDE_PATH` appended). -/
def importRecord (root : List String) (inc : String) (r : CRecord) : CRecord :=
  { directory := joinC root r.directory, file := joinC root r.file,
    command := r.command ++ " -I" ++ inc }

/-- The export loop over the whole database (order-preserving). -/
def export_compilation_db (root : List String) (db : List CRecord) : List CRecord :=
  db.map (exportRecord root)

/-- The value persisted by `import_compilation_db` (order-preserving). -/
def import_compilation_db (root : List String) (inc : String) (db : List CRecord) :
    List CRecord :=
  db.map (importRecord root inc)

/-! For the frame property of `import_compilation_db` the Python object
graph is made explicit: a heap of records addressed by index; the input
database is a list of addresses; `copy.deepcopy` allocates fresh copies
at the end of the heap and the rewrite loop mutates only those. -/

/-- The `for item in compilation_db:` mutation loop, acting on heap
addresses. -/
def importLoop (root : List String) (inc : String) : List Nat → List CRecord → List CRecord
  | [], h => h
  | a :: rest, h =>
    importLoop root inc rest (h.set a (importRecord root inc (h.getD a ⟨[], [], ""⟩)))

/-- `import_compilation_db` with the heap explicit: deep-copy the input
records to fresh addresses, rewrite the copies in place, and return the
new heap together with the fresh addresses (whose values are what gets
persisted to `compile_commands.json`). -/
def import_compilation_db_heap (root : List String) (inc : String)
    (heap : List CRecord) (db : List Nat) : List CRecord × List Nat :=
  let copies := db.map (fun a => heap.getD a ⟨[], [], ""⟩)
  let h1 := heap ++ copies
  let fresh := List.range' heap.length db.length
  (importLoop root inc fresh h1, fresh)

/-! ## Basic lemmas about the state model -/

theorem fsSet_same (fs : FS) (p : String) (v : Option (List String)) : fsSet fs p v p = v := by
  simp [fsSet]

theorem fsSet_other (fs : FS) (p : String) (v : Option (List String)) (q : String)
    (h : q ≠ p) : fsSet fs p v q = fs q := by
  simp [fsSet, h]

theorem fsSet_idem (fs : FS) (p : String) (v : Option (List String)) :
    fsSet (fsSet fs p v) p v = fsSet fs p v := by
  funext q
  by_cases h : q = p <;> simp [fsSet, h]

/-- The backup path is a strict extension of the buggy path, hence distinct
from it: mutations of the buggy file can never touch the backup. -/
theorem buggyPath_ne_backupPath (p : ProjectData) : buggyPath p ≠ backupPath p := by
  intro h
  have hl := congrArg String.length h
  rw [backupPath, buggyPath, String.length_append] at hl
  have h7 : (".backup" : String).length = 7 := rfl
  omega

/-- The successful-construction equation of `mkProject`. -/
theorem mkProject_eq (p : ProjectData) (w : World) (c : List String)
    (h : w.fs (buggyPath p) = some c) :
    mkProject p w = some { w with fs := fsSet w.fs (backupPath p) (some c) } := by
  rw [mkProject, h]

/-- The successful-restore equation of `restore_buggy`. -/
theorem restore_buggy_eq (p : ProjectData) (w : World) (c : List String)
    (h : w.fs (backupPath p) = some c) :
    restore_buggy p w = some { w with fs := fsSet w.fs (buggyPath p) (some c) } := by
  rw [restore_buggy, h]

/-- Restoring twice is the same as restoring once. -/
theorem restore_buggy_idem_of (p : ProjectData) (w : World) (c : List String)
    (h : w.fs (backupPath p) = some c) :
    restore_buggy p { w with fs := fsSet w.fs (buggyPath p) (some c) }
      = some { w with fs := fsSet w.fs (buggyPath p) (some c) } := by
  have hbk2 : ({ w with fs := fsSet w.fs (buggyPath p) (some c) } : World).fs (backupPath p)
      = some c := by
    show fsSet w.fs (buggyPath p) (some c) (backupPath p) = some c
    rw [fsSet_other _ _ _ _ (Ne.symm (buggyPath_ne_backupPath p))]
    exact h
  rw [restore_buggy_eq p _ c hbk2, Option.some.injEq]
  exact congrArg (fun f => { w with fs := f }) (fsSet_idem w.fs (buggyPath p) (some c))

theorem applyMutations_cons (p : ProjectData) (w : World) (m : Option (List String))
    (ms : List (Option (List String))) :
    applyMutations p w (m :: ms) =
      applyMutations p { w with fs := fsSet w.fs (buggyPath p) m } ms := rfl

theorem applyMutations_fs_other (p : ProjectData) (ms : List (Option (List String))) :
    ∀ (w : World) (q : String), q ≠ buggyPath p → (applyMutations p w ms).fs q = w.fs q := by
  induction ms with
  | nil => intro w q _; rfl
  | cons m ms ih =>
    intro w q hq
    rw [applyMutations_cons]
    rw [ih _ q hq]
    exact fsSet_other _ _ _ _ hq

/-! ## Claim theorems -/

/-- **C2.** For every Project and every finite sequence of arbitrary
mutations applied to the buggy file after construction, `restore_buggy()`
succeeds and makes the buggy file's content identical to its content at
Project construction; and calling it again is a no-op (safe to call any
number of times). -/
theorem restore_buggy_after_mutations (p : ProjectData) (w0 w1 : World)
    (content : List String) (ms : List (Option (List String)))
    (h0 : w0.fs (buggyPath p) = some content)
    (h1 : mkProject p w0 = some w1) :
    ∃ w2, restore_buggy p (applyMutations p w1 ms) = some w2 ∧
      w2.fs (buggyPath p) = some content ∧
      restore_buggy p w2 = some w2 := by
  rw [mkProject_eq p w0 content h0, Option.some.injEq] at h1
  subst h1
  have hbk : (applyMutations p { w0 with fs := fsSet w0.fs (backupPath p) (some content) }
      ms).fs (backupPath p) = some content := by
    rw [applyMutations_fs_other p ms _ _ (Ne.symm (buggyPath_ne_backupPath p))]
    exact fsSet_same _ _ _
  exact ⟨_, restore_buggy_eq p _ content hbk, fsSet_same _ _ _,
    restore_buggy_idem_of p _ content hbk⟩

/-- A concrete project, oracle and filesystem used by the witnesses. -/
def pW : ProjectData := ⟨false, "/d", "f", "make", none, [("t1", ⟨none, "bin"⟩)]⟩

/-- A concrete world whose filesystem holds the buggy file and all test
artifacts. -/
def wW : World :=
  ⟨fun q => if q = "/d/f" then some ["l1"] else
    if q = "/d/bin" then some [] else
    if q = "/d/bin.bc" then some [] else
    if q = "/d/bin.patched.bc" then some [] else none, 0, []⟩

/-- A well-behaved external tool (exit 0, filesystem untouched). -/
def oracle0 : Oracle := ⟨fun _ _ _ _ fs => (fs, 0), fun _ fs => (fs, 0)⟩

/-- An external tool that always exits 1 without touching the
filesystem. -/
def oracle1 : Oracle := ⟨fun _ _ _ _ fs => (fs, 1), fun _ fs => (fs, 1)⟩

/-- Witness for `restore_buggy_after_mutations` at a concrete project,
initial filesystem and mutation sequence. -/
theorem restore_buggy_after_mutations_witness :
    ∃ w2, restore_buggy pW
        (applyMutations pW { wW with fs := fsSet wW.fs (backupPath pW) (some ["l1"]) }
          [some ["x"], none, some ["y", "z"]]) = some w2 ∧
      w2.fs (buggyPath pW) = some ["l1"] ∧
      restore_buggy pW w2 = some w2 :=
  restore_buggy_after_mutations pW wW _ ["l1"]
    [some ["x"], none, some ["y", "z"]] (by decide)
    (mkProject_eq pW wW ["l1"] (by decide))

/-- **C10.** For every variant, `build_test` with a test-case identifier
that is not a key of the test specification returns the `KeyError` of the
unguarded dict indexing, before any build step or artifact check (state
and log are untouched). -/
theorem build_test_unknown_test_keyError (O : Oracle) (p : ProjectData) (w : World)
    (tc : String) (h : List.lookup tc p.tests_spec = none) :
    Validation.build_test O p w tc = (w, [], some .keyError) ∧
    Frontend.build_test O p w tc = (w, [], some .keyError) ∧
    Golden.build_test O p w tc = (w, [], some .keyError) ∧
    Backend.build_test O p w tc = (w, [], some .keyError) := by
  refine ⟨?_, ?_, ?_, ?_⟩
  · rw [Validation.build_test, h]
  · rw [Frontend.build_test, h]
  · rw [Golden.build_test, h]
  · rw [Backend.build_test, h]

/-- Witness for `build_test_unknown_test_keyError`: an empty test
specification. -/
theorem build_test_unknown_test_keyError_witness :
    Validation.build_test oracle0 ⟨false, "/d", "f", "make", none, []⟩
        ⟨fun _ => none, 0, []⟩ "t9"
      = (⟨fun _ => none, 0, []⟩, [], some .keyError) :=
  (build_test_unknown_test_keyError oracle0 ⟨false, "/d", "f", "make", none, []⟩
    ⟨fun _ => none, 0, []⟩ "t9" rfl).1

/-- The log produced by one `build_in_env` call, by unfolding. -/
theorem build_in_env_log (O : Oracle) (dir cmd : String) (stderr : Bool) (env : Env)
    (w : World) :
    (build_in_env O dir cmd stderr env w).log =
      (if (O.run dir cmd stderr
            (envSet env "ANGELIX_COMPILER_MESSAGES" (joinS (tmpName w.tmp) "messages"))
            w.fs).2 ≠ 0
        then [LogMsg.warnCompilation dir] else []) ++
      (match (O.run dir cmd stderr
            (envSet env "ANGELIX_COMPILER_MESSAGES" (joinS (tmpName w.tmp) "messages"))
            w.fs).1 (joinS (tmpName w.tmp) "messages") with
        | some lines => lines.map (fun l => LogMsg.warnFailedToBuild l.trim)
        | none => []) := rfl

/-- The environment handed to the child process by `build_in_env`. -/
theorem build_in_env_childEnv (O : Oracle) (dir cmd : String) (stderr : Bool) (env : Env)
    (w : World) :
    (build_in_env O dir cmd stderr env w).childEnv
      = envSet env "ANGELIX_COMPILER_MESSAGES" (joinS (tmpName w.tmp) "messages") := rfl

/-- The environment handed to the child process by `build_with_cc`. -/
theorem build_with_cc_childEnv (O : Oracle) (dir cmd : String) (stderr : Bool)
    (cc : String) (w : World) :
    (build_with_cc O dir cmd stderr cc w).childEnv
      = envSet (envSet w.procEnv "CC" cc) "ANGELIX_COMPILER_MESSAGES"
          (joinS (tmpName w.tmp) "messages") := rfl

/-- **C4.** For every working directory, shell command, output policy and
environment, when the external build command exits with a non-zero code,
`build_in_env` logs a warning identifying the directory and returns
normally (the function is total by construction: the
`CalledProcessError` is caught, so execution continues). -/
theorem build_in_env_nonzero_exit_warns (O : Oracle) (dir cmd : String) (stderr : Bool)
    (env : Env) (w : World)
    (h : (O.run dir cmd stderr
        (envSet env "ANGELIX_COMPILER_MESSAGES" (joinS (tmpName w.tmp) "messages"))
        w.fs).2 ≠ 0) :
    LogMsg.warnCompilation dir ∈ (build_in_env O dir cmd stderr env w).log := by
  rw [build_in_env_log, if_pos h]
  exact List.mem_append_left _ (List.mem_singleton.mpr rfl)

/-- Witness for `build_in_env_nonzero_exit_warns`: an external tool that
always exits 1. -/
theorem build_in_env_nonzero_exit_warns_witness :
    LogMsg.warnCompilation "/d" ∈
      (build_in_env oracle1 "/d" "make" true [] ⟨fun _ => none, 0, []⟩).log :=
  build_in_env_nonzero_exit_warns oracle1 "/d" "make" true [] _ (by decide)

/-- **C5** (the code contradicts it).  When the configure command is
present and exits non-zero, `configure` does *not* swallow the failure as
a logged warning: the handler's `relpath(dir)` applies `os.path.relpath`
to the Python builtin function `dir`, raising `TypeError`, which
propagates to the caller. -/
theorem configure_nonzero_exit_raises (O : Oracle) (p : ProjectData) (w : World)
    (cmd : String) (hc : p.configure_cmd = some cmd)
    (h : (O.run p.dir cmd (stderrOf p) w.procEnv w.fs).2 ≠ 0) :
    (configure O p w).2.2 = some PyErr.typeError := by
  rw [configure, hc]
  simp only [h, ne_eq, not_false_eq_true, if_true, ite_true]

/-- Witness for `configure_nonzero_exit_raises`: a configure command that
exits 1. -/
theorem configure_nonzero_exit_raises_witness :
    (configure oracle1 ⟨false, "/d", "f", "make", some "./configure", []⟩
      ⟨fun _ => none, 0, []⟩).2.2 = some PyErr.typeError :=
  configure_nonzero_exit_raises oracle1 ⟨false, "/d", "f", "make", some "./configure", []⟩
    ⟨fun _ => none, 0, []⟩ "./configure" rfl (by decide)

/-- **C7.** `build_with_cc` passes the child process an environment
containing the `CC` override and the injected messages-file variable,
while the ambient process environment is unchanged afterwards; a
subsequent default-environment call therefore sees the original `CC`
binding (no leakage between calls). -/
theorem build_with_cc_env_isolation (O : Oracle) (dir cmd : String) (stderr : Bool)
    (cc : String) (w : World) :
    envGet (build_with_cc O dir cmd stderr cc w).childEnv "CC" = some cc ∧
    envGet (build_with_cc O dir cmd stderr cc w).childEnv "ANGELIX_COMPILER_MESSAGES"
      = some (joinS (tmpName w.tmp) "messages") ∧
    (build_with_cc O dir cmd stderr cc w).w.procEnv = w.procEnv ∧
    (∀ dir2 cmd2 stderr2,
      envGet (build_in_env O dir2 cmd2 stderr2
          (build_with_cc O dir cmd stderr cc w).w.procEnv
          (build_with_cc O dir cmd stderr cc w).w).childEnv "CC"
        = envGet w.procEnv "CC") := by
  refine ⟨?_, ?_, rfl, ?_⟩
  · rw [build_with_cc_childEnv]
    show List.lookup "CC"
      (("ANGELIX_COMPILER_MESSAGES", joinS (tmpName w.tmp) "messages")
        :: ("CC", cc) :: w.procEnv) = some cc
    simp [List.lookup]
  · rw [build_with_cc_childEnv]
    show List.lookup "ANGELIX_COMPILER_MESSAGES"
      (("ANGELIX_COMPILER_MESSAGES", joinS (tmpName w.tmp) "messages")
        :: ("CC", cc) :: w.procEnv) = some (joinS (tmpName w.tmp) "messages")
    simp [List.lookup]
  · intro dir2 cmd2 stderr2
    rw [build_in_env_childEnv]
    have hp : (build_with_cc O dir cmd stderr cc w).w.procEnv = w.procEnv := rfl
    rw [hp]
    show List.lookup "CC"
      (("ANGELIX_COMPILER_MESSAGES", _) :: w.procEnv) = List.lookup "CC" w.procEnv
    simp [List.lookup]

/-- Unfolding of `Validation.build_test` on a present test case. -/
theorem Validation.build_test_validation_eq (O : Oracle) (p : ProjectData) (w : World) (tc : String)
    (entry : TestEntry) (h : List.lookup tc p.tests_spec = some entry) :
    Validation.build_test O p w tc =
      (if (Validation.subBuild O p w entry).1.fs (joinS p.dir entry.executable) = none then
        ((Validation.subBuild O p w entry).1,
          (Validation.subBuild O p w entry).2
            ++ [.errorFailedDependency tc (joinS p.dir entry.executable)],
          some .compilationError)
      else
        ((Validation.subBuild O p w entry).1, (Validation.subBuild O p w entry).2, none)) := by
  rw [Validation.build_test, h]

/-- Unfolding of `Frontend.build_test` on a present test case. -/
theorem Frontend.build_test_frontend_eq (O : Oracle) (p : ProjectData) (w : World) (tc : String)
    (entry : TestEntry) (h : List.lookup tc p.tests_spec = some entry) :
    Frontend.build_test O p w tc =
      (if (Frontend.subBuild O p w entry).1.fs (joinS p.dir entry.executable) = none then
        ((Frontend.subBuild O p w entry).1,
          (Frontend.subBuild O p w entry).2
            ++ [.errorFailedDependency tc (joinS p.dir entry.executable)],
          some .compilationError)
      else
        ((Frontend.subBuild O p w entry).1, (Frontend.subBuild O p w entry).2, none)) := by
  rw [Frontend.build_test, h]

/-- Unfolding of `Golden.build_test` on a present test case. -/
theorem Golden.build_test_golden_eq (O : Oracle) (p : ProjectData) (w : World) (tc : String)
    (entry : TestEntry) (h : List.lookup tc p.tests_spec = some entry) :
    Golden.build_test O p w tc =
      (if (Golden.subBuild O p w entry).1.fs (joinS p.dir entry.executable) = none then
        ((Golden.subBuild O p w entry).1,
          (Golden.subBuild O p w entry).2
            ++ [.errorFailedDependency tc (joinS p.dir entry.executable)],
          some .compilationError)
      else
        ((Golden.subBuild O p w entry).1, (Golden.subBuild O p w entry).2, none)) := by
  rw [Golden.build_test, h]

/-- Unfolding of `Backend.build_test` on a present test case. -/
theorem Backend.build_test_backend_eq (O : Oracle) (p : ProjectData) (w : World) (tc : String)
    (entry : TestEntry) (h : List.lookup tc p.tests_spec = some entry) :
    Backend.build_test O p w tc =
      (if (Backend.subBuild O p w entry).1.fs (joinS p.dir entry.executable ++ ".bc")
          = none then
        ((Backend.subBuild O p w entry).1,
          (Backend.subBuild O p w entry).2
            ++ [.errorFailedDependency tc (joinS p.dir entry.executable ++ ".bc")],
          some .compilationError)
      else if (O.patch (joinS p.dir entry.executable ++ ".bc")
            (Backend.subBuild O p w entry).1.fs).1
            (joinS p.dir entry.executable ++ ".patched.bc") = none then
        ({ (Backend.subBuild O p w entry).1 with
            fs := (O.patch (joinS p.dir entry.executable ++ ".bc")
              (Backend.subBuild O p w entry).1.fs).1 },
          ((Backend.subBuild O p w entry).2 ++
            (if (O.patch (joinS p.dir entry.executable ++ ".bc")
                (Backend.subBuild O p w entry).1.fs).2 ≠ 0
              then [.warnPatching (joinS p.dir entry.executable ++ ".bc")] else []))
            ++ [.errorFailedDependency tc (joinS p.dir entry.executable ++ ".patched.bc")],
          some .compilationError)
      else
        ({ (Backend.subBuild O p w entry).1 with
            fs := (O.patch (joinS p.dir entry.executable ++ ".bc")
              (Backend.subBuild O p w entry).1.fs).1 },
          (Backend.subBuild O p w entry).2 ++
            (if (O.patch (joinS p.dir entry.executable ++ ".bc")
                (Backend.subBuild O p w entry).1.fs).2 ≠ 0
              then [.warnPatching (joinS p.dir entry.executable ++ ".bc")] else []),
          none)) := by
  rw [Backend.build_test, h]

/-- The executable-existence check: a normal return implies the artifact
exists in the returned state. -/
theorem artifactCheck_ok_exists (s1 : World × List LogMsg) (tc dep : String)
    (w1 : World) (log : List LogMsg)
    (hE : (if s1.1.fs dep = none then
        (s1.1, s1.2 ++ [LogMsg.errorFailedDependency tc dep], some PyErr.compilationError)
      else (s1.1, s1.2, none)) = (w1, log, none)) :
    w1.fs dep ≠ none := by
  by_cases hd : s1.1.fs dep = none
  · rw [if_pos hd] at hE
    exact absurd (congrArg (fun x => x.2.2) hE) (by simp)
  · rw [if_neg hd] at hE
    have h1 := congrArg Prod.fst hE
    simp only at h1
    rw [← h1]
    exact hd

/-- **C1.** For every variant and every test case present in the test
specification: when `build_test` returns normally the required terminal
artifact exists (the test executable for Validation/Frontend/Golden, the
`.patched.bc` sibling for Backend); equivalently, an absent artifact
after all applicable steps means a `CompilationError` was raised — never
a silent success with a missing artifact. -/
theorem build_test_no_silent_success (O : Oracle) (p : ProjectData) (w : World)
    (tc : String) (entry : TestEntry)
    (h : List.lookup tc p.tests_spec = some entry) :
    (∀ w1 log, Validation.build_test O p w tc = (w1, log, none) →
       w1.fs (joinS p.dir entry.executable) ≠ none) ∧
    (∀ w1 log, Frontend.build_test O p w tc = (w1, log, none) →
       w1.fs (joinS p.dir entry.executable) ≠ none) ∧
    (∀ w1 log, Golden.build_test O p w tc = (w1, log, none) →
       w1.fs (joinS p.dir entry.executable) ≠ none) ∧
    (∀ w1 log, Backend.build_test O p w tc = (w1, log, none) →
       w1.fs (joinS p.dir entry.executable ++ ".patched.bc") ≠ none) := by
  refine ⟨?_, ?_, ?_, ?_⟩
  · intro w1 log hE
    rw [Validation.build_test_validation_eq O p w tc entry h] at hE
    exact artifactCheck_ok_exists _ tc _ w1 log hE
  · intro w1 log hE
    rw [Frontend.build_test_frontend_eq O p w tc entry h] at hE
    exact artifactCheck_ok_exists _ tc _ w1 log hE
  · intro w1 log hE
    rw [Golden.build_test_golden_eq O p w tc entry h] at hE
    exact artifactCheck_ok_exists _ tc _ w1 log hE
  · intro w1 log hE
    rw [Backend.build_test_backend_eq O p w tc entry h] at hE
    by_cases hbc : (Backend.subBuild O p w entry).1.fs
        (joinS p.dir entry.executable ++ ".bc") = none
    · rw [if_pos hbc] at hE
      exact absurd (congrArg (fun x => x.2.2) hE) (by simp)
    · rw [if_neg hbc] at hE
      by_cases hpd : (O.patch (joinS p.dir entry.executable ++ ".bc")
          (Backend.subBuild O p w entry).1.fs).1
          (joinS p.dir entry.executable ++ ".patched.bc") = none
      · rw [if_pos hpd] at hE
        exact absurd (congrArg (fun x => x.2.2) hE) (by simp)
      · rw [if_neg hpd] at hE
        have h1 := congrArg Prod.fst hE
        simp only at h1
        rw [← h1]
        exact hpd

/-- Witness for `build_test_no_silent_success`: a project whose artifacts
all exist, on which Validation and Backend `build_test` return normally. -/
theorem build_test_no_silent_success_witness :
    ((Validation.build_test oracle0 pW wW "t1").1.fs (joinS "/d" "bin") ≠ none) ∧
    ((Backend.build_test oracle0 pW wW "t1").1.fs
      (joinS "/d" "bin" ++ ".patched.bc") ≠ none) :=
  ⟨(build_test_no_silent_success oracle0 pW wW "t1" ⟨none, "bin"⟩ (by decide)).1 _ _ rfl,
   (build_test_no_silent_success oracle0 pW wW "t1" ⟨none, "bin"⟩ (by decide)).2.2.2 _ _ rfl⟩

/-- **C6.** In `Backend.build_test`, given that the `.bc` artifact exists
after the sub-build, the operation raises `CompilationError` iff the
`.patched.bc` sibling is absent after the patch attempt; a non-zero exit
of the bitcode patcher alone only logs a warning and never by itself
causes the raise. -/
theorem backend_patch_raise_iff_patched_absent (O : Oracle) (p : ProjectData) (w : World)
    (tc : String) (entry : TestEntry)
    (h : List.lookup tc p.tests_spec = some entry)
    (w1 : World) (log1 : List LogMsg)
    (hsub : Backend.subBuild O p w entry = (w1, log1))
    (hbc : w1.fs (joinS p.dir entry.executable ++ ".bc") ≠ none)
    (fs2 : FS) (code : Nat)
    (hpatch : O.patch (joinS p.dir entry.executable ++ ".bc") w1.fs = (fs2, code)) :
    (((Backend.build_test O p w tc).2.2 = some PyErr.compilationError) ↔
        fs2 (joinS p.dir entry.executable ++ ".patched.bc") = none) ∧
    (code ≠ 0 →
        LogMsg.warnPatching (joinS p.dir entry.executable ++ ".bc")
          ∈ (Backend.build_test O p w tc).2.1) := by
  rw [Backend.build_test_backend_eq O p w tc entry h, hsub]
  dsimp only
  rw [hpatch]
  dsimp only
  rw [if_neg hbc]
  by_cases hpd : fs2 (joinS p.dir entry.executable ++ ".patched.bc") = none
  · rw [if_pos hpd]
    refine ⟨⟨fun _ => hpd, fun _ => rfl⟩, ?_⟩
    intro hcode
    rw [if_pos hcode]
    exact List.mem_append_left _
      (List.mem_append_right _ (List.mem_singleton.mpr rfl))
  · rw [if_neg hpd]
    refine ⟨⟨fun hcontra => absurd hcontra (by simp), fun hcontra => absurd hcontra hpd⟩, ?_⟩
    intro hcode
    rw [if_pos hcode]
    exact List.mem_append_right _ (List.mem_singleton.mpr rfl)

/-- Witness for `backend_patch_raise_iff_patched_absent`: a patcher that
exits 1 while the `.patched.bc` artifact exists; the warning is logged
and no `CompilationError` is raised. -/
theorem backend_patch_raise_iff_patched_absent_witness :
    LogMsg.warnPatching (joinS "/d" "bin" ++ ".bc") ∈
      (Backend.build_test ⟨fun _ _ _ _ fs => (fs, 0), fun _ fs => (fs, 1)⟩
        pW wW "t1").2.1 :=
  (backend_patch_raise_iff_patched_absent ⟨fun _ _ _ _ fs => (fs, 0), fun _ fs => (fs, 1)⟩
    pW wW "t1" ⟨none, "bin"⟩ (by decide) wW [] rfl (by decide) wW.fs 1 rfl).2 (by decide)

/-! ## Compilation database claims -/

theorem commonPrefixLen_append (l t : List String) : commonPrefixLen (l ++ t) l = l.length := by
  induction l with
  | nil => cases t <;> rfl
  | cons x xs ih => simp [commonPrefixLen, ih]

/-- Round trip of one record whose paths are strict descendants of the
root. -/
theorem importRecord_exportRecord (root : List String) (inc : String) (r : CRecord)
    (hd : root <+: r.directory) (hd2 : r.directory ≠ root)
    (hf : root <+: r.file) (hf2 : r.file ≠ root) :
    importRecord root inc (exportRecord root r)
      = { r with command := r.command ++ " -I" ++ inc } := by
  obtain ⟨t, ht⟩ := hd
  obtain ⟨u, hu⟩ := hf
  have htne : t ≠ [] := by rintro rfl; simp at ht; exact hd2 ht.symm
  have hune : u ≠ [] := by rintro rfl; simp at hu; exact hf2 hu.symm
  rw [importRecord, exportRecord]
  rw [relpathC, relpathC]
  simp only [← ht, ← hu, commonPrefixLen_append, Nat.sub_self, List.replicate_zero,
    List.nil_append, List.drop_left, htne, hune, if_false, ite_false]
  rw [joinC, joinC]

/-- **C3** (corrected form).  For every compilation database whose
records' `directory` and `file` are strict descendants of the project
root, exporting (absolute → root-relative, order preserved) and then
importing against the same root reconstitutes the original absolute
values for every record and appends the include flag exactly once to each
command. -/
theorem export_import_roundtrip (root : List String) (inc : String) (db : List CRecord)
    (h : ∀ r ∈ db, ((root <+: r.directory ∧ r.directory ≠ root) ∧
        (root <+: r.file ∧ r.file ≠ root))) :
    import_compilation_db root inc (export_compilation_db root db)
      = db.map (fun r => { r with command := r.command ++ " -I" ++ inc }) := by
  rw [import_compilation_db, export_compilation_db, List.map_map]
  refine List.map_congr_left ?_
  intro r hr
  obtain ⟨⟨hd, hd2⟩, hf, hf2⟩ := h r hr
  exact importRecord_exportRecord root inc r hd hd2 hf hf2

/-- Witness for `export_import_roundtrip` on a concrete database. -/
theorem export_import_roundtrip_witness :
    import_compilation_db ["home", "proj"] "inc"
        (export_compilation_db ["home", "proj"]
          [⟨["home", "proj", "sub"], ["home", "proj", "sub", "a.c"], "cc -c a.c"⟩])
      = [⟨["home", "proj", "sub"], ["home", "proj", "sub", "a.c"], "cc -c a.c -Iinc"⟩] := by
  have := export_import_roundtrip ["home", "proj"] "inc"
    [⟨["home", "proj", "sub"], ["home", "proj", "sub", "a.c"], "cc -c a.c"⟩] (by decide)
  rw [this]
  rfl

/-- **C3** fails as stated: for a record whose `directory` *equals* the
root, `relpath` yields `.` and the unnormalised `join` produces
`root ++ ["."]`, not the original value. -/
theorem export_import_not_roundtrip_at_root :
    importRecord ["home", "proj"] "inc"
        (exportRecord ["home", "proj"] ⟨["home", "proj"], ["home", "proj", "a.c"], "cc"⟩)
      ≠ { directory := ["home", "proj"], file := ["home", "proj", "a.c"],
          command := "cc" ++ " -I" ++ "inc" } ∧
    (importRecord ["home", "proj"] "inc"
        (exportRecord ["home", "proj"]
          ⟨["home", "proj"], ["home", "proj", "a.c"], "cc"⟩)).directory
      = ["home", "proj", "."] := by
  constructor
  · intro hcontra
    have := congrArg CRecord.directory hcontra
    simp [importRecord, exportRecord, relpathC, joinC, commonPrefixLen] at this
  · rfl

/-- The element of `pre ++ c :: cs` at position `pre.length` is `c`. -/
theorem get_append_cons {α : Type _} (pre : List α) (c : α) (cs : List α) :
    ∀ h : pre.length < (pre ++ c :: cs).length,
      (pre ++ c :: cs).get ⟨pre.length, h⟩ = c := by
  induction pre with
  | nil => intro h; rfl
  | cons x xs ih => intro h; exact ih _

/-- `importLoop` over the fresh addresses rewrites exactly the copies. -/
theorem importLoop_fresh (root : List String) (inc : String) :
    ∀ (cs pre : List CRecord),
      importLoop root inc (List.range' pre.length cs.length) (pre ++ cs)
        = pre ++ cs.map (importRecord root inc) := by
  intro cs
  induction cs with
  | nil => intro pre; simp [List.range', importLoop]
  | cons c cs ih =>
    intro pre
    rw [List.length_cons, List.range'_succ, importLoop]
    have hget : (pre ++ c :: cs).getD pre.length ⟨[], [], ""⟩ = c := by
      rw [List.getD_eq_getElem?_getD, List.getElem?_eq_getElem (by simp)]
      exact get_append_cons pre c cs _
    have hset : (pre ++ c :: cs).set pre.length (importRecord root inc c)
        = (pre ++ [importRecord root inc c]) ++ cs := by
      rw [List.set_append_right _ _ (Nat.le_refl _)]
      simp
    rw [hget, hset]
    have hlen : pre.length + 1 = (pre ++ [importRecord root inc c]).length := by simp
    rw [hlen, ih]
    simp

/-- Reading back the fresh addresses from the final heap yields the
rewritten copies. -/
theorem range'_map_getD (d : CRecord) :
    ∀ (cs pre : List CRecord),
      (List.range' pre.length cs.length).map (fun a => (pre ++ cs).getD a d) = cs := by
  intro cs
  induction cs with
  | nil => intro pre; simp [List.range']
  | cons c cs ih =>
    intro pre
    rw [List.length_cons, List.range'_succ, List.map_cons]
    have hget : (pre ++ c :: cs).getD pre.length d = c := by
      rw [List.getD_eq_getElem?_getD, List.getElem?_eq_getElem (by simp)]
      exact get_append_cons pre c cs _
    have hrw : pre ++ c :: cs = (pre ++ [c]) ++ cs := by simp
    have hlen : pre.length + 1 = (pre ++ [c]).length := by simp
    rw [hget, hrw, hlen, ih]

/-- Unfolding of the heap-level import: the final heap is the old heap
followed by the rewritten copies; the fresh addresses are returned. -/
theorem import_compilation_db_heap_eq (root : List String) (inc : String)
    (heap : List CRecord) (db : List Nat) :
    import_compilation_db_heap root inc heap db
      = (heap ++ (db.map (fun a => heap.getD a ⟨[], [], ""⟩)).map (importRecord root inc),
          List.range' heap.length db.length) := by
  show (importLoop root inc (List.range' heap.length db.length)
      (heap ++ db.map (fun a => heap.getD a ⟨[], [], ""⟩)),
      List.range' heap.length db.length) = _
  rw [Prod.mk.injEq]
  refine ⟨?_, rfl⟩
  rw [show db.length = (db.map (fun a => heap.getD a ⟨[], [], ""⟩)).length by simp]
  exact importLoop_fresh root inc _ heap

/-- **C9.** `import_compilation_db` never mutates its input database: all
records existing before the call have the same values after it; only the
deep copies at fresh addresses are rewritten, and the persisted database
is exactly the pure transform of the input records. -/
theorem import_compilation_db_no_input_mutation (root : List String) (inc : String)
    (heap : List CRecord) (db : List Nat) :
    (∀ i, i < heap.length →
      (import_compilation_db_heap root inc heap db).1[i]? = heap[i]?) ∧
    (import_compilation_db_heap root inc heap db).2.map
        (fun a => (import_compilation_db_heap root inc heap db).1.getD a ⟨[], [], ""⟩)
      = import_compilation_db root inc (db.map (fun a => heap.getD a ⟨[], [], ""⟩)) := by
  constructor
  · intro i hi
    rw [import_compilation_db_heap_eq]
    exact List.getElem?_append_left hi
  · rw [import_compilation_db_heap_eq, import_compilation_db]
    dsimp only
    rw [show db.length
        = ((db.map (fun a => heap.getD a ⟨[], [], ""⟩)).map (importRecord root inc)).length
      by simp]
    exact range'_map_getD _ _ heap

/-! ## `difflib` embedding

`Project.diff_buggy` calls `difflib.unified_diff(backup_lines, buggy_lines,
fromfile=join('a', buggy), tofile=join('b', buggy))`.  The diff algorithm is
embedded from CPython's `difflib.py` (`SequenceMatcher` constructed with
`isjunk=None`, so `bjunk` is empty, and `autojunk=True`, so in sequences of
at least 200 lines the elements occurring more than `len(b)//100 + 1`
times are dropped from `b2j`). -/

/-- Opcode tags of `SequenceMatcher.get_opcodes`. -/
inductive Tag where
  | replace
  | delete
  | insert
  | equal
  deriving DecidableEq

/-- One opcode `(tag, i1, i2, j1, j2)`. -/
structure Op where
  tag : Tag
  i1 : Nat
  i2 : Nat
  j1 : Nat
  j2 : Nat
  deriving DecidableEq

/-- One matching block `Match(a, b, size)`. -/
structure FMatch where
  bi : Nat
  bj : Nat
  bsize : Nat
  deriving DecidableEq

/-- `b2j.setdefault(elt, []).append(i)`. -/
def b2jInsert (m : List (String × List Nat)) (x : String) (i : Nat) :
    List (String × List Nat) :=
  match m with
  | [] => [(x, [i])]
  | (y, js) :: rest =>
    if y = x then (y, js ++ [i]) :: rest else (y, js) :: b2jInsert rest x i

/-- The `__chain_b` index-building loop: `b2j[elt]` is the ascending list
of positions of `elt` in `b`. -/
def buildB2J (b : List String) : List (String × List Nat) :=
  b.enum.foldl (fun m p => b2jInsert m p.2 p.1) []

/-- The autojunk purge of `__chain_b`: for `len(b) ≥ 200`, entries with
more than `len(b)//100 + 1` positions are deleted from `b2j`. -/
def purgePopular (m : List (String × List Nat)) (n : Nat) : List (String × List Nat) :=
  if 200 ≤ n then m.filter (fun q => decide (q.2.length ≤ n / 100 + 1)) else m

/-- The state of a `SequenceMatcher(None, a, b)` after `__chain_b`
(`bjunk` is empty because `isjunk` is `None`; it is kept as a field
because `find_longest_match` consults it). -/
structure SM where
  a : List String
  b : List String
  b2j : List (String × List Nat)
  bjunk : List String

/-- `SequenceMatcher(None, a, b)`. -/
def mkSM (a b : List String) : SM :=
  { a := a, b := b, b2j := purgePopular (buildB2J b) b.length, bjunk := [] }

/-- `j2len.get(j, 0)`. -/
def j2lenGet (j2len : List (Nat × Nat)) (j : Nat) : Nat :=
  (List.lookup j j2len).getD 0

/-- The inner loop of `find_longest_match` over `b2j.get(a[i], [])`:
`continue` below `blo`, `break` at `bhi`, chain-extend `newj2len[j]`
from the previous row's `j2len[j-1]`, and update the best block on a
strict improvement.  (Python's `j2len.get(j-1, 0)` looks up key `-1`
when `j = 0`, which is never present; the `j = 0` guard models that
under `Nat` keys.) -/
def rowLoop (blo bhi i : Nat) (j2lenOld : List (Nat × Nat)) :
    List Nat → List (Nat × Nat) → FMatch → List (Nat × Nat) × FMatch
  | [], acc, best => (acc, best)
  | j :: js, acc, best =>
    if j < blo then rowLoop blo bhi i j2lenOld js acc best
    else if bhi ≤ j then (acc, best)
    else
      let k := (if j = 0 then 0 else j2lenGet j2lenOld (j - 1)) + 1
      let acc2 := acc ++ [(j, k)]
      let best2 := if best.bsize < k then (⟨i + 1 - k, j + 1 - k, k⟩ : FMatch) else best
      rowLoop blo bhi i j2lenOld js acc2 best2

/-- The outer loop of `find_longest_match` over rows `i ∈ [alo, ahi)`;
each row rebuilds `newj2len` from scratch and installs it afterwards. -/
def mainLoop (m : SM) (blo bhi : Nat) :
    List Nat → List (Nat × Nat) → FMatch → FMatch
  | [], _, best => best
  | i :: rows, j2len, best =>
    let js := (List.lookup (m.a.getD i "") m.b2j).getD []
    let st := rowLoop blo bhi i j2len js [] best
    mainLoop m blo bhi rows st.1 st.2

/-- First extension loop of `find_longest_match`: extend backwards over
equal non-junk elements.  Structural recursion on `besti` (the loop
guard `besti > alo` fails at `0` since `alo : Nat`). -/
def extBack (m : SM) (alo blo : Nat) : Nat → Nat → Nat → FMatch
  | 0, bj, bs => ⟨0, bj, bs⟩
  | bi + 1, bj, bs =>
    if alo < bi + 1 ∧ blo < bj ∧ m.b.getD (bj - 1) "" ∉ m.bjunk ∧
        m.a.getD bi "" = m.b.getD (bj - 1) "" then
      extBack m alo blo bi (bj - 1) (bs + 1)
    else ⟨bi + 1, bj, bs⟩

/-- Second extension loop: extend forwards over equal non-junk elements.
The fuel is exactly `ahi - (besti + bestsize)`, which the loop guard
keeps in lockstep, so exhausted fuel coincides with a false guard. -/
def extFwdF (m : SM) (ahi bhi bi bj : Nat) : Nat → Nat → FMatch
  | 0, bs => ⟨bi, bj, bs⟩
  | f + 1, bs =>
    if bi + bs < ahi ∧ bj + bs < bhi ∧ m.b.getD (bj + bs) "" ∉ m.bjunk ∧
        m.a.getD (bi + bs) "" = m.b.getD (bj + bs) "" then
      extFwdF m ahi bhi bi bj f (bs + 1)
    else ⟨bi, bj, bs⟩

/-- Third extension loop: extend backwards over equal junk elements. -/
def extBackJunk (m : SM) (alo blo : Nat) : Nat → Nat → Nat → FMatch
  | 0, bj, bs => ⟨0, bj, bs⟩
  | bi + 1, bj, bs =>
    if alo < bi + 1 ∧ blo < bj ∧ m.b.getD (bj - 1) "" ∈ m.bjunk ∧
        m.a.getD bi "" = m.b.getD (bj - 1) "" then
      extBackJunk m alo blo bi (bj - 1) (bs + 1)
    else ⟨bi + 1, bj, bs⟩

/-- Fourth extension loop: extend forwards over equal junk elements. -/
def extFwdJunkF (m : SM) (ahi bhi bi bj : Nat) : Nat → Nat → FMatch
  | 0, bs => ⟨bi, bj, bs⟩
  | f + 1, bs =>
    if bi + bs < ahi ∧ bj + bs < bhi ∧ m.b.getD (bj + bs) "" ∈ m.bjunk ∧
        m.a.getD (bi + bs) "" = m.b.getD (bj + bs) "" then
      extFwdJunkF m ahi bhi bi bj f (bs + 1)
    else ⟨bi, bj, bs⟩

/-- `SequenceMatcher.find_longest_match(alo, ahi, blo, bhi)`. -/
def findLongestMatch (m : SM) (alo ahi blo bhi : Nat) : FMatch :=
  let b0 := mainLoop m blo bhi (List.range' alo (ahi - alo)) [] ⟨alo, blo, 0⟩
  let b1 := extBack m alo blo b0.bi b0.bj b0.bsize
  let b2 := extFwdF m ahi bhi b1.bi b1.bj (ahi - (b1.bi + b1.bsize)) b1.bsize
  let b3 := extBackJunk m alo blo b2.bi b2.bj b2.bsize
  extFwdJunkF m ahi bhi b3.bi b3.bj (ahi - (b3.bi + b3.bsize)) b3.bsize

/-- The recursion of `get_matching_blocks`.  CPython drains an explicit
stack and sorts the collected blocks afterwards; since the two
sub-ranges of a split lie strictly left and right of the found block,
in-order recursion yields that same sorted list directly.  The fuel
strictly bounds the recursion depth: every recursive call shrinks
`(ahi - alo) + (bhi - blo)` by at least 2, so `la + lb + 1` never runs
out on the initial call. -/
def mbRec (m : SM) : Nat → Nat → Nat → Nat → Nat → List FMatch
  | 0, _, _, _, _ => []
  | fuel + 1, alo, ahi, blo, bhi =>
    let x := findLongestMatch m alo ahi blo bhi
    if x.bsize = 0 then []
    else
      (if alo < x.bi ∧ blo < x.bj then mbRec m fuel alo x.bi blo x.bj else []) ++
      [x] ++
      (if x.bi + x.bsize < ahi ∧ x.bj + x.bsize < bhi then
        mbRec m fuel (x.bi + x.bsize) ahi (x.bj + x.bsize) bhi else [])

/-- The adjacent-block collapsing pass of `get_matching_blocks`
(starting from `i1 = j1 = k1 = 0`). -/
def collapseGo (i1 j1 k1 : Nat) : List FMatch → List FMatch
  | [] => if k1 ≠ 0 then [⟨i1, j1, k1⟩] else []
  | x :: rest =>
    if i1 + k1 = x.bi ∧ j1 + k1 = x.bj then collapseGo i1 j1 (k1 + x.bsize) rest
    else (if k1 ≠ 0 then [⟨i1, j1, k1⟩] else []) ++ collapseGo x.bi x.bj x.bsize rest

/-- `SequenceMatcher.get_matching_blocks()`: recursive splitting,
adjacent-block collapsing, and the `(la, lb, 0)` sentinel. -/
def getMatchingBlocks (m : SM) : List FMatch :=
  collapseGo 0 0 0 (mbRec m (m.a.length + m.b.length + 1) 0 m.a.length 0 m.b.length)
    ++ [⟨m.a.length, m.b.length, 0⟩]

/-- The loop body of `get_opcodes`. -/
def opcodesGo (i j : Nat) : List FMatch → List Op
  | [] => []
  | x :: rest =>
    (if i < x.bi ∧ j < x.bj then [⟨.replace, i, x.bi, j, x.bj⟩]
      else if i < x.bi then [⟨.delete, i, x.bi, j, x.bj⟩]
      else if j < x.bj then [⟨.insert, i, x.bi, j, x.bj⟩]
      else []) ++
    (if x.bsize ≠ 0 then
      [⟨.equal, x.bi, x.bi + x.bsize, x.bj, x.bj + x.bsize⟩] else []) ++
    opcodesGo (x.bi + x.bsize) (x.bj + x.bsize) rest

/-- `SequenceMatcher.get_opcodes()`. -/
def getOpcodes (m : SM) : List Op := opcodesGo 0 0 (getMatchingBlocks m)

/-- `codes[0]` fixup of `get_grouped_opcodes` (leading context clip;
`max(i1, i2-n)` under truncated subtraction agrees with Python's `max`
over integers since `i1 ≥ 0`). -/
def clipHead (n : Nat) (c : Op) : Op :=
  if c.tag = .equal then ⟨c.tag, max c.i1 (c.i2 - n), c.i2, max c.j1 (c.j2 - n), c.j2⟩
  else c

/-- `codes[-1]` fixup of `get_grouped_opcodes` (trailing context clip). -/
def clipLast (n : Nat) (c : Op) : Op :=
  if c.tag = .equal then ⟨c.tag, c.i1, min c.i2 (c.i1 + n), c.j1, min c.j2 (c.j1 + n)⟩
  else c

/-- Replace the head of a list. -/
def modifyHead (f : Op → Op) : List Op → List Op
  | [] => []
  | c :: rest => f c :: rest

/-- Replace the last element of a list. -/
def modifyLast (f : Op → Op) : List Op → List Op
  | [] => []
  | [c] => [f c]
  | c :: c2 :: rest => c :: modifyLast f (c2 :: rest)

/-- The grouping loop of `get_grouped_opcodes`: split at equal runs
longer than `2n`, clipping context on both sides; a trailing group is
emitted unless it is a single equal opcode. -/
def groupGo (n : Nat) (group : List Op) : List Op → List (List Op)
  | [] =>
    if group ≠ [] ∧ ¬(group.length = 1 ∧ (group.headD ⟨.equal, 0, 0, 0, 0⟩).tag = .equal)
    then [group] else []
  | c :: rest =>
    if c.tag = .equal ∧ n + n < c.i2 - c.i1 then
      (group ++ [⟨c.tag, c.i1, min c.i2 (c.i1 + n), c.j1, min c.j2 (c.j1 + n)⟩]) ::
        groupGo n [⟨c.tag, max c.i1 (c.i2 - n), c.i2, max c.j1 (c.j2 - n), c.j2⟩] rest
    else groupGo n (group ++ [c]) rest

/-- `SequenceMatcher.get_grouped_opcodes(n)`. -/
def getGroupedOpcodes (m : SM) (n : Nat) : List (List Op) :=
  let codes0 := getOpcodes m
  let codes1 := if codes0 = [] then [⟨.equal, 0, 1, 0, 1⟩] else codes0
  groupGo n [] (modifyLast (clipLast n) (modifyHead (clipHead n) codes1))

/-- Python slice `l[i:j]`. -/
def sliceL (l : List String) (i j : Nat) : List String := (l.drop i).take (j - i)

/-- `difflib._format_range_unified`. -/
def formatRangeUnified (start stop : Nat) : String :=
  let beginning := start + 1
  let length := stop - start
  if length = 1 then toString beginning
  else if length = 0 then toString (beginning - 1) ++ "," ++ toString length
  else toString beginning ++ "," ++ toString length

/-- The per-opcode lines of `unified_diff` (content lines carry their
own terminators in Python; lines are terminator-free in this model). -/
def opLines (a b : List String) (op : Op) : List String :=
  match op.tag with
  | .equal => (sliceL a op.i1 op.i2).map (fun l => " " ++ l)
  | .replace => (sliceL a op.i1 op.i2).map (fun l => "-" ++ l)
      ++ (sliceL b op.j1 op.j2).map (fun l => "+" ++ l)
  | .delete => (sliceL a op.i1 op.i2).map (fun l => "-" ++ l)
  | .insert => (sliceL b op.j1 op.j2).map (fun l => "+" ++ l)

/-- The hunk header and body for one group. -/
def groupLines (a b : List String) (lineterm : String) (g : List Op) : List String :=
  match g with
  | [] => []
  | first :: _ =>
    ("@@ -" ++ formatRangeUnified first.i1 (g.getLastD first).i2
      ++ " +" ++ formatRangeUnified first.j1 (g.getLastD first).j2
      ++ " @@" ++ lineterm) :: (g.map (opLines a b)).flatten

/-- `difflib.unified_diff(a, b, fromfile, tofile, n, lineterm)` (dates
empty): header lines are produced once before the first group. -/
def unified_diff (a b : List String) (fromfile tofile : String) (n : Nat)
    (lineterm : String) : List String :=
  let groups := getGroupedOpcodes (mkSM a b) n
  if groups = [] then []
  else ("--- " ++ fromfile ++ lineterm) :: ("+++ " ++ tofile ++ lineterm)
    :: (groups.map (groupLines a b lineterm)).flatten

/-- `Project.diff_buggy`: read the buggy file and the backup (`none`
models `FileNotFoundError`) and produce the unified diff from the backup
to the current content, labelled `a/<buggy>` and `b/<buggy>`. -/
def diff_buggy (p : ProjectData) (w : World) : Option (List String) :=
  match w.fs (buggyPath p), w.fs (backupPath p) with
  | some buggy_lines, some backup_lines =>
    some (unified_diff backup_lines buggy_lines (joinS "a" p.buggy) (joinS "b" p.buggy)
      3 "\n")
  | _, _ => none

/-- The `+`-prefixed content lines of a diff body (the two header lines
are excluded positionally in the specifications below). -/
def addedLines (body : List String) : List String :=
  body.filter (fun l => decide (l.data.head? = some '+'))

/-- The `-`-prefixed content lines of a diff body. -/
def removedLines (body : List String) : List String :=
  body.filter (fun l => decide (l.data.head? = some '-'))

/-! ### Characterisation of `b2j` -/

/-- The ascending list of positions of `x` in `b`. -/
def occs (x : String) (b : List String) : List Nat :=
  (List.range b.length).filter (fun i => decide (b.getD i "" = x))

theorem occs_sorted (x : String) (b : List String) : (occs x b).Pairwise (· < ·) :=
  List.Pairwise.sublist (List.filter_sublist _) (List.pairwise_lt_range _)

theorem mem_occs (x : String) (b : List String) (j : Nat) :
    j ∈ occs x b ↔ j < b.length ∧ b.getD j "" = x := by
  simp [occs, List.mem_filter, List.mem_range]

theorem occs_append_singleton (x y : String) (b : List String) :
    occs x (b ++ [y]) = occs x b ++ (if y = x then [b.length] else []) := by
  rw [occs, occs, List.length_append, List.length_singleton, List.range_succ,
    List.filter_append]
  congr 1
  · refine List.filter_congr ?_
    intro i hi
    rw [List.mem_range] at hi
    have : (b ++ [y]).getD i "" = b.getD i "" := by
      rw [List.getD_eq_getElem?_getD, List.getD_eq_getElem?_getD,
        List.getElem?_append_left hi]
    rw [this]
  · have : (b ++ [y]).getD b.length "" = y := by
      rw [List.getD_eq_getElem?_getD, List.getElem?_append_right (Nat.le_refl _)]
      simp
    by_cases hxy : y = x
    · simp [List.filter, this, hxy]
    · simp [List.filter, this, hxy]

theorem lookup_b2jInsert (m : List (String × List Nat)) (x y : String) (i : Nat) :
    List.lookup x (b2jInsert m y i)
      = if x = y then some ((List.lookup x m).getD [] ++ [i]) else List.lookup x m := by
  induction m with
  | nil =>
    by_cases hxy : x = y
    · subst hxy; simp [b2jInsert, List.lookup]
    · have hb : (x == y) = false := beq_eq_false_iff_ne.mpr hxy
      simp [b2jInsert, List.lookup, hxy, hb]
  | cons p rest ih =>
    obtain ⟨z, js⟩ := p
    by_cases hzy : z = y
    · subst hzy
      rw [show b2jInsert ((z, js) :: rest) z i = (z, js ++ [i]) :: rest by
        simp [b2jInsert]]
      by_cases hxz : x = z
      · subst hxz
        simp [List.lookup]
      · have hb : (x == z) = false := beq_eq_false_iff_ne.mpr hxz
        simp [List.lookup, hxz, hb]
    · rw [show b2jInsert ((z, js) :: rest) y i = (z, js) :: b2jInsert rest y i by
        simp [b2jInsert, hzy]]
      by_cases hxz : x = z
      · subst hxz
        have hxy : ¬x = y := hzy
        simp [List.lookup, hxy]
      · have hb : (x == z) = false := beq_eq_false_iff_ne.mpr hxz
        simp [List.lookup, hxz, hb, ih]

/-- `buildB2J` extended by one trailing element. -/
theorem buildB2J_snoc (b : List String) (y : String) :
    buildB2J (b ++ [y]) = b2jInsert (buildB2J b) y b.length := by
  rw [buildB2J, buildB2J, List.enum_append]
  simp [List.foldl_append, List.enumFrom]

/-- Full characterisation of the pre-purge index: an entry exists exactly
for the values occurring in `b`, and holds the ascending occurrence
list. -/
theorem lookup_buildB2J (b : List String) (x : String) :
    List.lookup x (buildB2J b)
      = if occs x b = [] then none else some (occs x b) := by
  induction b using List.reverseRecOn with
  | nil => simp [buildB2J, occs, List.lookup]
  | append_singleton b y ih =>
    rw [buildB2J_snoc, lookup_b2jInsert, occs_append_singleton, ih]
    by_cases hxy : x = y
    · subst hxy
      simp only [if_pos rfl]
      by_cases h0 : occs x b = []
      · simp [h0]
      · simp [h0]
    · have : ¬(y = x) := fun h => hxy h.symm
      simp [hxy, this]

theorem b2jInsert_keys (m : List (String × List Nat)) (y : String) (i : Nat) :
    (b2jInsert m y i).map Prod.fst
      = if y ∈ m.map Prod.fst then m.map Prod.fst else m.map Prod.fst ++ [y] := by
  induction m with
  | nil => simp [b2jInsert]
  | cons p rest ih =>
    obtain ⟨z, js⟩ := p
    by_cases hzy : z = y
    · subst hzy
      rw [show b2jInsert ((z, js) :: rest) z i = (z, js ++ [i]) :: rest by
        simp [b2jInsert]]
      simp
    · rw [show b2jInsert ((z, js) :: rest) y i = (z, js) :: b2jInsert rest y i by
        simp [b2jInsert, hzy]]
      have hyz : ¬(y = z) := fun h => hzy h.symm
      by_cases hm : y ∈ rest.map Prod.fst
      · simp [hm, hyz, ih]
      · simp [hm, hyz, ih]

theorem buildB2J_keys_nodup (b : List String) : ((buildB2J b).map Prod.fst).Nodup := by
  induction b using List.reverseRecOn with
  | nil => simp [buildB2J]
  | append_singleton b y ih =>
    rw [buildB2J_snoc, b2jInsert_keys]
    by_cases hm : y ∈ (buildB2J b).map Prod.fst
    · simp [hm, ih]
    · simp [List.nodup_append, hm, ih]

theorem lookup_none_of_not_mem_keys {β : Type _} (x : String) :
    ∀ m : List (String × β), x ∉ m.map Prod.fst → List.lookup x m = none := by
  intro m
  induction m with
  | nil => intro _; rfl
  | cons p rest ih =>
    intro hx
    obtain ⟨z, v⟩ := p
    rw [List.map_cons, List.mem_cons] at hx
    push_neg at hx
    have hb : (x == z) = false := beq_eq_false_iff_ne.mpr hx.1
    simp [List.lookup, hb, ih hx.2]

theorem lookup_filter_keys_nodup {β : Type _} (f : String × β → Bool) :
    ∀ (m : List (String × β)), ((m.map Prod.fst).Nodup) → ∀ x,
      List.lookup x (m.filter f)
        = match List.lookup x m with
          | none => none
          | some v => if f (x, v) then some v else none := by
  intro m
  induction m with
  | nil => intro _ x; simp [List.lookup]
  | cons p rest ih =>
    intro hnd x
    obtain ⟨z, v⟩ := p
    rw [List.map_cons, List.nodup_cons] at hnd
    by_cases hxz : x = z
    · subst hxz
      have hxf : x ∉ (rest.filter f).map Prod.fst := by
        intro hmem
        rw [List.mem_map] at hmem
        obtain ⟨q, hq1, hq2⟩ := hmem
        exact hnd.1 (List.mem_map.mpr ⟨q, List.mem_of_mem_filter hq1, hq2⟩)
      by_cases hf : f (x, v)
      · rw [List.filter_cons, if_pos hf]
        simp [List.lookup, hf]
      · rw [List.filter_cons, if_neg hf]
        rw [lookup_none_of_not_mem_keys x _ hxf]
        simp [List.lookup, hf]
    · have hb : (x == z) = false := beq_eq_false_iff_ne.mpr hxz
      rw [List.filter_cons]
      by_cases hf : f (z, v)
      · rw [if_pos hf]
        simp only [List.lookup, hb]
        exact ih hnd.2 x
      · rw [if_neg hf]
        simp only [List.lookup, hb]
        exact ih hnd.2 x

/-- Master characterisation of the purged index of `mkSM a b`. -/
theorem lookup_mkSM_b2j (a b : List String) (x : String) :
    List.lookup x (mkSM a b).b2j
      = if occs x b = [] ∨ (200 ≤ b.length ∧ ¬((occs x b).length ≤ b.length / 100 + 1))
        then none else some (occs x b) := by
  show List.lookup x (purgePopular (buildB2J b) b.length) = _
  rw [purgePopular]
  by_cases h200 : 200 ≤ b.length
  · rw [if_pos h200, lookup_filter_keys_nodup _ _ (buildB2J_keys_nodup b) x,
      lookup_buildB2J]
    by_cases h0 : occs x b = []
    · simp [h0]
    · rw [if_neg h0]
      by_cases hpop : (occs x b).length ≤ b.length / 100 + 1
      · simp [h0, h200, hpop]
      · simp [h0, h200, hpop]
  · rw [if_neg h200, lookup_buildB2J]
    by_cases h0 : occs x b = []
    · simp [h0]
    · simp [h0, h200]

/-! ### The `j2len` chain values of the main loop -/

/-- The value `newj2len[j] = j2len.get(j-1, 0) + 1` computed at one row
from the previous row's dictionary. -/
def rowK (j2lenOld : List (Nat × Nat)) (j : Nat) : Nat :=
  (if j = 0 then 0 else j2lenGet j2lenOld (j - 1)) + 1

/-- The chain value the main loop stores at key `j` while processing row
`i` of the window starting at `(alo, blo)` (row `alo` starts from an
empty dictionary, and chains extend from key `j - 1` of the previous
row when that key was populated). -/
def chain (m : SM) (alo blo : Nat) : Nat → Nat → Nat
  | 0, _ => 1
  | i + 1, j =>
    (if alo < i + 1 ∧ blo < j ∧ (j - 1) ∈ ((List.lookup (m.a.getD i "") m.b2j).getD [])
      then chain m alo blo i (j - 1) else 0) + 1

theorem chain_pos (m : SM) (alo blo : Nat) (i j : Nat) : 0 < chain m alo blo i j := by
  cases i <;> simp [chain]

theorem chain_le_col (m : SM) (alo blo : Nat) :
    ∀ i j, blo ≤ j → chain m alo blo i j ≤ j + 1 - blo := by
  intro i
  induction i with
  | zero => intro j hj; rw [chain]; omega
  | succ i ih =>
    intro j hj
    rw [chain]
    by_cases hg : alo < i + 1 ∧ blo < j ∧
        (j - 1) ∈ ((List.lookup (m.a.getD i "") m.b2j).getD [])
    · rw [if_pos hg]
      have := ih (j - 1) (by omega)
      omega
    · rw [if_neg hg]; omega

theorem chain_le_row (m : SM) (alo blo : Nat) :
    ∀ i j, alo ≤ i → chain m alo blo i j ≤ i + 1 - alo := by
  intro i
  induction i with
  | zero => intro j hj; rw [chain]; omega
  | succ i ih =>
    intro j hj
    rw [chain]
    by_cases hg : alo < i + 1 ∧ blo < j ∧
        (j - 1) ∈ ((List.lookup (m.a.getD i "") m.b2j).getD [])
    · rw [if_pos hg]
      have := ih (j - 1) (by omega)
      omega
    · rw [if_neg hg]; omega

/-- The dictionary invariant between rows: entering row `r`, `j2len`
holds exactly the in-window keys of the previous row's position list,
with their chain values. -/
def J2 (m : SM) (alo blo bhi r : Nat) (j2len : List (Nat × Nat)) : Prop :=
  ∀ j, List.lookup j j2len
    = if alo < r ∧ j ∈ ((List.lookup (m.a.getD (r - 1) "") m.b2j).getD [])
        ∧ blo ≤ j ∧ j < bhi
      then some (chain m alo blo (r - 1) j) else none

theorem J2_initial (m : SM) (alo blo bhi : Nat) : J2 m alo blo bhi alo [] := by
  intro j
  rw [if_neg]
  · rfl
  · intro hc; omega

/-- At an in-window key, the per-row value is the chain value. -/
theorem rowK_eq_chain (m : SM) (alo blo bhi r : Nat) (j2len : List (Nat × Nat))
    (hJ : J2 m alo blo bhi r j2len) (halo : alo ≤ r) (j : Nat)
    (hblo : blo ≤ j) (hbhi : j < bhi) :
    rowK j2len j = chain m alo blo r j := by
  rw [rowK]
  by_cases hj0 : j = 0
  · subst hj0
    cases r with
    | zero => simp [chain]
    | succ r =>
      rw [if_pos rfl, chain, if_neg]
      intro hc; omega
  · rw [if_neg hj0, j2lenGet, hJ (j - 1)]
    cases r with
    | zero =>
      rw [if_neg (by intro hc; omega), chain]
      rfl
    | succ r =>
      rw [chain]
      simp only [Nat.add_sub_cancel]
      by_cases hg : alo < r + 1 ∧ blo < j ∧
          (j - 1) ∈ ((List.lookup (m.a.getD r "") m.b2j).getD [])
      · rw [if_pos ⟨hg.1, hg.2.2, by omega, by omega⟩, if_pos hg]
        rfl
      · rw [if_neg ?hcond, if_neg hg]
        · rfl
        case hcond =>
          intro hc
          exact hg ⟨hc.1, by omega, hc.2.1⟩

/-! ### The inner (per-row) loop -/

/-- One unfolding step of `rowLoop`, with the stored value written via
`rowK`. -/
theorem rowLoop_cons (blo bhi i : Nat) (old : List (Nat × Nat)) (j : Nat) (js : List Nat)
    (acc : List (Nat × Nat)) (best : FMatch) :
    rowLoop blo bhi i old (j :: js) acc best
      = if j < blo then rowLoop blo bhi i old js acc best
        else if bhi ≤ j then (acc, best)
        else rowLoop blo bhi i old js (acc ++ [(j, rowK old j)])
          (if best.bsize < rowK old j
            then ⟨i + 1 - rowK old j, j + 1 - rowK old j, rowK old j⟩ else best) := rfl

/-- If no in-window candidate beats the current best, the best is
unchanged. -/
theorem rowLoop_best_noupdate (blo bhi i : Nat) (old : List (Nat × Nat)) :
    ∀ (js : List Nat) (acc : List (Nat × Nat)) (best : FMatch),
      (∀ j ∈ js, blo ≤ j → j < bhi → rowK old j ≤ best.bsize) →
      (rowLoop blo bhi i old js acc best).2 = best := by
  intro js
  induction js with
  | nil => intro acc best _; rfl
  | cons j rest ih =>
    intro acc best hb
    rw [rowLoop_cons]
    by_cases h1 : j < blo
    · rw [if_pos h1]
      exact ih _ _ (fun j' hj' => hb j' (List.mem_cons_of_mem _ hj'))
    · rw [if_neg h1]
      by_cases h2 : bhi ≤ j
      · rw [if_pos h2]
      · rw [if_neg h2]
        have h3 : rowK old j ≤ best.bsize :=
          hb j (List.mem_cons_self _ _) (by omega) (by omega)
        rw [if_neg (by omega)]
        exact ih _ _ (fun j' hj' => hb j' (List.mem_cons_of_mem _ hj'))

/-- When the sorted position list contains the in-window key `i`, all
earlier candidates are dominated by the current best and all later ones
by the diagonal candidate, so the row's final best is an exact max. -/
theorem rowLoop_best_exact (blo bhi i : Nat) (old : List (Nat × Nat)) :
    ∀ (js : List Nat) (acc : List (Nat × Nat)) (best : FMatch),
      js.Pairwise (· < ·) → i ∈ js → blo ≤ i → i < bhi →
      (∀ j ∈ js, blo ≤ j → j < bhi → j < i → rowK old j ≤ best.bsize) →
      (∀ j ∈ js, blo ≤ j → j < bhi → i < j → rowK old j ≤ rowK old i) →
      (rowLoop blo bhi i old js acc best).2
        = if best.bsize < rowK old i
          then ⟨i + 1 - rowK old i, i + 1 - rowK old i, rowK old i⟩ else best := by
  intro js
  induction js with
  | nil => intro acc best _ hmem; exact absurd hmem (List.not_mem_nil i)
  | cons j rest ih =>
    intro acc best hsort hmem hbloi hbhii hlt hgt
    have hsort2 := List.pairwise_cons.mp hsort
    rw [rowLoop_cons]
    by_cases h1 : j < blo
    · rw [if_pos h1]
      have hmem2 : i ∈ rest := by
        rcases List.mem_cons.mp hmem with h | h
        · omega
        · exact h
      exact ih _ _ hsort2.2 hmem2 hbloi hbhii
        (fun j' hj' => hlt j' (List.mem_cons_of_mem _ hj'))
        (fun j' hj' => hgt j' (List.mem_cons_of_mem _ hj'))
    · rw [if_neg h1]
      by_cases h2 : bhi ≤ j
      · exfalso
        rcases List.mem_cons.mp hmem with h | h
        · omega
        · have := hsort2.1 i h
          omega
      · rw [if_neg h2]
        rcases Nat.lt_trichotomy j i with hji | hji | hji
        · have h3 : rowK old j ≤ best.bsize :=
            hlt j (List.mem_cons_self _ _) (by omega) (by omega) hji
          rw [if_neg (by omega)]
          have hmem2 : i ∈ rest := by
            rcases List.mem_cons.mp hmem with h | h
            · omega
            · exact h
          exact ih _ _ hsort2.2 hmem2 hbloi hbhii
            (fun j' hj' => hlt j' (List.mem_cons_of_mem _ hj'))
            (fun j' hj' => hgt j' (List.mem_cons_of_mem _ hj'))
        · subst hji
          have hrest : ∀ j' ∈ rest, blo ≤ j' → j' < bhi →
              rowK old j' ≤ (if best.bsize < rowK old j
                then (⟨j + 1 - rowK old j, j + 1 - rowK old j, rowK old j⟩ : FMatch)
                else best).bsize := by
            intro j' hj' hb' hh'
            have hjj' : j < j' := hsort2.1 j' hj'
            have := hgt j' (List.mem_cons_of_mem _ hj') hb' hh' hjj'
            by_cases hup : best.bsize < rowK old j
            · rw [if_pos hup]; exact this
            · rw [if_neg hup]; omega
          rw [rowLoop_best_noupdate blo bhi j old rest _ _ hrest]
        · exfalso
          rcases List.mem_cons.mp hmem with h | h
          · omega
          · have := hsort2.1 i h
            omega

theorem lookup_none_keys {κ β : Type _} [BEq κ] [LawfulBEq κ] (x : κ) :
    ∀ m : List (κ × β), (∀ p ∈ m, p.1 ≠ x) → List.lookup x m = none := by
  intro m
  induction m with
  | nil => intro _; rfl
  | cons p rest ih =>
    intro hm
    have h1 : p.1 ≠ x := hm p (List.mem_cons_self _ _)
    have hb : (x == p.1) = false := beq_eq_false_iff_ne.mpr (fun h => h1 h.symm)
    obtain ⟨z, v⟩ := p
    simp only [List.lookup, hb]
    exact ih (fun q hq => hm q (List.mem_cons_of_mem _ hq))

theorem lookup_append_keys {κ β : Type _} [BEq κ] [LawfulBEq κ] (x : κ)
    (l1 l2 : List (κ × β)) :
    List.lookup x (l1 ++ l2) = ((List.lookup x l1).or (List.lookup x l2)) := by
  induction l1 with
  | nil => simp [List.lookup]
  | cons p rest ih =>
    obtain ⟨z, v⟩ := p
    by_cases hxz : x = z
    · subst hxz
      simp [List.lookup]
    · have hb : (x == z) = false := beq_eq_false_iff_ne.mpr hxz
      simp only [List.cons_append, List.lookup, hb]
      exact ih

/-- The dictionary built by one row: exactly the in-window keys of the
row's position list, mapped to their `rowK` values. -/
theorem rowLoop_acc (blo bhi i : Nat) (old : List (Nat × Nat)) :
    ∀ (js : List Nat) (acc : List (Nat × Nat)) (best : FMatch),
      js.Pairwise (· < ·) →
      (∀ p ∈ acc, ∀ j' ∈ js, p.1 < j') →
      ∀ j, List.lookup j (rowLoop blo bhi i old js acc best).1
        = if j ∈ js ∧ blo ≤ j ∧ j < bhi then some (rowK old j)
          else List.lookup j acc := by
  intro js
  induction js with
  | nil =>
    intro acc best _ _ j
    rw [if_neg (by simp)]
    rfl
  | cons j0 rest ih =>
    intro acc best hsort hacc j
    have hsort2 := List.pairwise_cons.mp hsort
    rw [rowLoop_cons]
    by_cases h1 : j0 < blo
    · rw [if_pos h1]
      rw [ih acc best hsort2.2
        (fun p hp j' hj' => hacc p hp j' (List.mem_cons_of_mem _ hj')) j]
      by_cases hj : j ∈ rest ∧ blo ≤ j ∧ j < bhi
      · rw [if_pos hj, if_pos ⟨List.mem_cons_of_mem _ hj.1, hj.2⟩]
      · rw [if_neg hj, if_neg ?hc]
        case hc =>
          intro hc
          rcases List.mem_cons.mp hc.1 with h | h
          · omega
          · exact hj ⟨h, hc.2⟩
    · rw [if_neg h1]
      by_cases h2 : bhi ≤ j0
      · rw [if_pos h2]
        rw [if_neg ?hc2]
        case hc2 =>
          intro hc
          rcases List.mem_cons.mp hc.1 with h | h
          · omega
          · have := hsort2.1 j h
            omega
      · rw [if_neg h2]
        have hacc2 : ∀ p ∈ acc ++ [(j0, rowK old j0)], ∀ j' ∈ rest, p.1 < j' := by
          intro p hp j' hj'
          rcases List.mem_append.mp hp with h | h
          · exact hacc p h j' (List.mem_cons_of_mem _ hj')
          · rw [List.mem_singleton] at h
            subst h
            exact hsort2.1 j' hj'
        rw [ih _ _ hsort2.2 hacc2 j]
        by_cases hj : j ∈ rest ∧ blo ≤ j ∧ j < bhi
        · rw [if_pos hj, if_pos ⟨List.mem_cons_of_mem _ hj.1, hj.2⟩]
        · rw [if_neg hj]
          by_cases hjj0 : j = j0
          · subst hjj0
            rw [if_pos ⟨List.mem_cons_self _ _, by omega, by omega⟩]
            rw [lookup_append_keys, lookup_none_keys j acc
              (fun p hp h => by have := hacc p hp j (List.mem_cons_self _ _); omega)]
            simp [List.lookup]
          · rw [if_neg ?hc3]
            case hc3 =>
              intro hc
              rcases List.mem_cons.mp hc.1 with h | h
              · exact hjj0 h
              · exact hj ⟨h, hc.2⟩
            rw [lookup_append_keys]
            have : List.lookup j [(j0, rowK old j0)] = none := by
              have hb : (j == j0) = false := beq_eq_false_iff_ne.mpr hjj0
              simp [List.lookup, hb]
            rw [this]
            cases List.lookup j acc <;> rfl

theorem mkSM_a (a b : List String) : (mkSM a b).a = a := rfl

theorem mkSM_b (a b : List String) : (mkSM a b).b = b := rfl

theorem mkSM_bjunk (a b : List String) : (mkSM a b).bjunk = [] := rfl

/-- Soundness of the purged index: a listed position holds the value. -/
theorem positions_sound (a b : List String) (x : String) (j : Nat)
    (h : j ∈ (List.lookup x (mkSM a b).b2j).getD []) :
    j < b.length ∧ b.getD j "" = x := by
  rw [lookup_mkSM_b2j] at h
  by_cases hc : occs x b = [] ∨ (200 ≤ b.length ∧ ¬((occs x b).length ≤ b.length / 100 + 1))
  · rw [if_pos hc] at h
    exact absurd h (List.not_mem_nil j)
  · rw [if_neg hc] at h
    exact (mem_occs x b j).mp h

/-- Completeness within a retained entry: if the entry exists at all, it
lists every occurrence. -/
theorem mem_positions_self (a b : List String) (x : String) (i : Nat)
    (hne : (List.lookup x (mkSM a b).b2j).getD [] ≠ [])
    (hib : i < b.length) (hval : b.getD i "" = x) :
    i ∈ (List.lookup x (mkSM a b).b2j).getD [] := by
  rw [lookup_mkSM_b2j] at hne ⊢
  by_cases hc : occs x b = [] ∨ (200 ≤ b.length ∧ ¬((occs x b).length ≤ b.length / 100 + 1))
  · rw [if_pos hc] at hne
    exact absurd rfl hne
  · rw [if_neg hc]
    exact (mem_occs x b i).mpr ⟨hib, hval⟩

/-- Position lists of the purged index are ascending. -/
theorem positions_sorted (a b : List String) (x : String) :
    ((List.lookup x (mkSM a b).b2j).getD []).Pairwise (· < ·) := by
  rw [lookup_mkSM_b2j]
  by_cases hc : occs x b = [] ∨ (200 ≤ b.length ∧ ¬((occs x b).length ≤ b.length / 100 + 1))
  · rw [if_pos hc]; exact List.Pairwise.nil
  · rw [if_neg hc]; exact occs_sorted x b

/-- For equal sequences, a chain ending off-diagonal at `(i, j)` with
`j ≤ i` is dominated by the diagonal chain ending at `(j, j)`: its
content forms a diagonal chain there. -/
theorem chain_le_diag_left (c : List String) (alo : Nat) :
    ∀ i j, j ≤ i → chain (mkSM c c) alo alo i j ≤ chain (mkSM c c) alo alo j j := by
  intro i
  induction i with
  | zero =>
    intro j hj
    have : j = 0 := by omega
    subst this
    exact Nat.le_refl _
  | succ i ih =>
    intro j hj
    by_cases hji : j = i + 1
    · subst hji
      exact Nat.le_refl _
    · have hj2 : j ≤ i := by omega
      rw [chain]
      by_cases hg : alo < i + 1 ∧ alo < j ∧
          (j - 1) ∈ ((List.lookup ((mkSM c c).a.getD i "") (mkSM c c).b2j).getD [])
      · rw [if_pos hg]
        obtain ⟨j', rfl⟩ : ∃ j', j = j' + 1 := ⟨j - 1, by omega⟩
        have hmem0 : j' ∈ ((List.lookup ((mkSM c c).a.getD i "") (mkSM c c).b2j).getD []) := by
          simpa using hg.2.2
        obtain ⟨hlen, hval⟩ := positions_sound c c _ j' hmem0
        have hval' : c.getD j' "" = c.getD i "" := by
          rw [hval, mkSM_a]
        have hmemj : j' ∈ ((List.lookup ((mkSM c c).a.getD j' "") (mkSM c c).b2j).getD []) := by
          rw [mkSM_a, hval', ← mkSM_a c c]
          exact hmem0
        rw [show chain (mkSM c c) alo alo (j' + 1) (j' + 1)
            = chain (mkSM c c) alo alo j' j' + 1 from by
          rw [chain, if_pos ⟨by omega, by omega, by simpa using hmemj⟩]
          simp]
        have hih := ih j' (by omega)
        simp only [Nat.add_sub_cancel]
        omega
      · rw [if_neg hg]
        have := chain_pos (mkSM c c) alo alo j j
        omega

/-- For equal sequences, a chain ending off-diagonal at `(i, j)` with
`i ≤ j` is dominated by the diagonal chain ending at `(i, i)`. -/
theorem chain_le_diag_right (c : List String) (alo : Nat) :
    ∀ i j, i < c.length → i ≤ j →
      chain (mkSM c c) alo alo i j ≤ chain (mkSM c c) alo alo i i := by
  intro i
  induction i with
  | zero =>
    intro j _ _
    rw [chain, chain]
  | succ i ih =>
    intro j hlen hij
    by_cases hji : j = i + 1
    · subst hji
      exact Nat.le_refl _
    · have hij2 : i + 1 < j := by omega
      rw [chain]
      by_cases hg : alo < i + 1 ∧ alo < j ∧
          (j - 1) ∈ ((List.lookup ((mkSM c c).a.getD i "") (mkSM c c).b2j).getD [])
      · rw [if_pos hg]
        have hne : ((List.lookup ((mkSM c c).a.getD i "") (mkSM c c).b2j).getD []) ≠ [] := by
          intro h
          rw [h] at hg
          exact (List.not_mem_nil _) hg.2.2
        have hmem : i ∈ ((List.lookup ((mkSM c c).a.getD i "") (mkSM c c).b2j).getD []) :=
          mem_positions_self c c _ i hne (by omega) (by rw [mkSM_a])
        rw [show chain (mkSM c c) alo alo (i + 1) (i + 1)
            = chain (mkSM c c) alo alo i i + 1 from by
          rw [chain, if_pos ⟨hg.1, hg.1, by simpa using hmem⟩]
          simp]
        have hih := ih (j - 1) (by omega) (by omega)
        omega
      · rw [if_neg hg]
        have := chain_pos (mkSM c c) alo alo (i + 1) (i + 1)
        omega

theorem mainLoop_cons (m : SM) (blo bhi : Nat) (i : Nat) (rows : List Nat)
    (j2len : List (Nat × Nat)) (best : FMatch) :
    mainLoop m blo bhi (i :: rows) j2len best
      = mainLoop m blo bhi rows
          (rowLoop blo bhi i j2len ((List.lookup (m.a.getD i "") m.b2j).getD []) [] best).1
          (rowLoop blo bhi i j2len ((List.lookup (m.a.getD i "") m.b2j).getD [])
            [] best).2 := rfl

/-- On equal sequences the main loop always holds a diagonal best block:
an off-diagonal candidate `(i, j)` is dominated by the diagonal chain of
`min i j`, which was already offered to the best. -/
theorem mainLoop_diag_of_eq (c : List String) (alo ahi : Nat) (hahi : ahi ≤ c.length) :
    ∀ (nrows r : Nat) (j2len : List (Nat × Nat)) (best : FMatch),
      alo ≤ r → r + nrows = ahi →
      J2 (mkSM c c) alo alo ahi r j2len →
      best.bi = best.bj → alo ≤ best.bi → best.bi + best.bsize ≤ r →
      (∀ i2, alo ≤ i2 → i2 < r →
        (List.lookup (c.getD i2 "") (mkSM c c).b2j).getD [] ≠ [] →
          chain (mkSM c c) alo alo i2 i2 ≤ best.bsize) →
      ∃ p s, mainLoop (mkSM c c) alo ahi (List.range' r nrows) j2len best = ⟨p, p, s⟩ ∧
        alo ≤ p ∧ p + s ≤ ahi := by
  intro nrows
  induction nrows with
  | zero =>
    intro r j2len best h1 h2 _ hdiag hbi hbound _
    refine ⟨best.bi, best.bsize, ?_, hbi, by omega⟩
    show best = _
    cases best with
    | mk bi bj bs =>
      simp only at hdiag
      subst hdiag
      rfl
  | succ n ih =>
    intro r j2len best h1 h2 hJ hdiag hbi hbound hB
    rw [List.range'_succ, mainLoop_cons]
    cases hlk : List.lookup ((mkSM c c).a.getD r "") (mkSM c c).b2j with
    | none =>
      have hgetD0 : ((List.lookup ((mkSM c c).a.getD r "") (mkSM c c).b2j).getD [])
          = ([] : List Nat) := by rw [hlk]; rfl
      refine ih (r + 1) [] best (by omega) (by omega) ?_ hdiag hbi (by omega) ?_
      · intro j
        rw [if_neg]
        · rfl
        · intro hc
          obtain ⟨-, hc2, -⟩ := hc
          rw [Nat.add_sub_cancel] at hc2
          rw [hgetD0] at hc2
          exact List.not_mem_nil j hc2
      · intro i2 hi2a hi2r hne
        by_cases hir : i2 = r
        · subst hir
          rw [mkSM_a] at hlk
          rw [show (List.lookup (c.getD i2 "") (mkSM c c).b2j).getD [] = [] from by
            rw [hlk]; rfl] at hne
          exact absurd rfl hne
        · exact hB i2 hi2a (by omega) hne
    | some js =>
      rw [mkSM_a] at hlk
      have hjs : js = occs (c.getD r "") c := by
        have hmaster := lookup_mkSM_b2j c c (c.getD r "")
        rw [hlk] at hmaster
        by_cases hcond : occs (c.getD r "") c = [] ∨
            (200 ≤ c.length ∧ ¬((occs (c.getD r "") c).length ≤ c.length / 100 + 1))
        · rw [if_pos hcond] at hmaster
          exact absurd hmaster (by simp)
        · rw [if_neg hcond] at hmaster
          exact Option.some.inj hmaster
      have hsort : js.Pairwise (· < ·) := by
        rw [hjs]; exact occs_sorted _ _
      have hrlen : r < c.length := by omega
      have hrahi : r < ahi := by omega
      have hrmem : r ∈ js := by
        rw [hjs]; exact (mem_occs _ _ _).mpr ⟨hrlen, rfl⟩
      have hrk : ∀ j, alo ≤ j → j < ahi → rowK j2len j = chain (mkSM c c) alo alo r j :=
        fun j hj1 hj2 => rowK_eq_chain (mkSM c c) alo alo ahi r j2len hJ h1 j hj1 hj2
      simp only [Option.getD_some]
      have hlt : ∀ j ∈ js, alo ≤ j → j < ahi → j < r → rowK j2len j ≤ best.bsize := by
        intro j hjmem hj1 hj2 hjr
        rw [hrk j hj1 hj2]
        have h1c := chain_le_diag_left c alo r j (by omega)
        have hjval : c.getD j "" = c.getD r "" := by
          rw [hjs] at hjmem
          exact ((mem_occs _ _ _).mp hjmem).2
        have hne2 : (List.lookup (c.getD j "") (mkSM c c).b2j).getD [] ≠ [] := by
          rw [hjval, hlk]
          intro h
          simp only [Option.getD_some] at h
          rw [h] at hrmem
          exact List.not_mem_nil _ hrmem
        have hBj := hB j hj1 hjr hne2
        omega
      have hgt : ∀ j ∈ js, alo ≤ j → j < ahi → r < j → rowK j2len j ≤ rowK j2len r := by
        intro j hjmem hj1 hj2 hrj
        rw [hrk j hj1 hj2, hrk r h1 hrahi]
        exact chain_le_diag_right c alo r j hrlen (by omega)
      have hexact := rowLoop_best_exact alo ahi r j2len js [] best hsort hrmem h1 hrahi
        hlt hgt
      rw [hrk r h1 hrahi] at hexact
      rw [hexact]
      have haccnil : ∀ p ∈ ([] : List (Nat × Nat)), ∀ j' ∈ js, p.1 < j' := by
        intro p hp
        exact absurd hp (List.not_mem_nil p)
      have hJ2 : J2 (mkSM c c) alo alo ahi (r + 1)
          (rowLoop alo ahi r j2len js [] best).1 := by
        intro j
        rw [rowLoop_acc alo ahi r j2len js [] best hsort haccnil j]
        by_cases hcnd : j ∈ js ∧ alo ≤ j ∧ j < ahi
        · rw [if_pos hcnd, if_pos ?_, hrk j hcnd.2.1 hcnd.2.2]
          · rw [Nat.add_sub_cancel]
          · refine ⟨by omega, ?_, hcnd.2⟩
            rw [Nat.add_sub_cancel, mkSM_a, hlk]
            exact hcnd.1
        · rw [if_neg hcnd, if_neg ?_]
          · rfl
          · intro hc
            obtain ⟨-, hc2, hc3⟩ := hc
            rw [Nat.add_sub_cancel, mkSM_a, hlk] at hc2
            exact hcnd ⟨hc2, hc3⟩
      by_cases hup : best.bsize < chain (mkSM c c) alo alo r r
      · rw [if_pos hup]
        have hcb1 := chain_le_row (mkSM c c) alo alo r r h1
        have hcb2 := chain_pos (mkSM c c) alo alo r r
        refine ih (r + 1) _ _ (by omega) (by omega) hJ2 rfl (by
          show alo ≤ r + 1 - chain (mkSM c c) alo alo r r
          omega) (by
          show r + 1 - chain (mkSM c c) alo alo r r + chain (mkSM c c) alo alo r r ≤ r + 1
          omega) ?_
        intro i2 hi2a hi2r hne
        by_cases hir : i2 = r
        · subst hir
          show chain (mkSM c c) alo alo i2 i2 ≤ chain (mkSM c c) alo alo i2 i2
          exact Nat.le_refl _
        · have := hB i2 hi2a (by omega) hne
          show chain (mkSM c c) alo alo i2 i2 ≤ chain (mkSM c c) alo alo r r
          omega
      · rw [if_neg hup]
        refine ih (r + 1) _ best (by omega) (by omega) hJ2 hdiag hbi (by omega) ?_
        intro i2 hi2a hi2r hne
        by_cases hir : i2 = r
        · subst hir
          omega
        · exact hB i2 hi2a (by omega) hne

/-- On equal sequences the backward extension loop walks a diagonal best
back to the window start. -/
theorem extBack_diag (c : List String) (alo : Nat) :
    ∀ bi bj bs, bi = bj → alo ≤ bi →
      extBack (mkSM c c) alo alo bi bj bs = ⟨alo, alo, bs + (bi - alo)⟩ := by
  intro bi
  induction bi with
  | zero =>
    intro bj bs hbj halo
    subst hbj
    have h0 : alo = 0 := Nat.le_zero.mp halo
    subst h0
    rfl
  | succ k ih =>
    intro bj bs hbj halo
    subst hbj
    rw [extBack]
    by_cases halo2 : alo < k + 1
    · rw [if_pos ?_]
      · rw [Nat.add_sub_cancel, ih k (bs + 1) rfl (by omega)]
        have harith : bs + 1 + (k - alo) = bs + (k + 1 - alo) := by omega
        rw [harith]
      · refine ⟨halo2, halo2, ?_, ?_⟩
        · rw [mkSM_bjunk]
          exact List.not_mem_nil _
        · rw [mkSM_a, mkSM_b, Nat.add_sub_cancel]
    · rw [if_neg ?_]
      · have h1 : alo = k + 1 := by omega
        rw [h1, Nat.sub_self]
        rfl
      · intro hc
        exact absurd hc.1 halo2

/-- On equal sequences the forward extension loop extends a diagonal
best to the end of its fuel (which equals the distance to the window
end). -/
theorem extFwdF_diag (c : List String) (ahi p : Nat) :
    ∀ f bs, f = ahi - (p + bs) →
      extFwdF (mkSM c c) ahi ahi p p f bs = ⟨p, p, bs + f⟩ := by
  intro f
  induction f with
  | zero => intro bs _; rfl
  | succ g ih =>
    intro bs hf
    rw [extFwdF, if_pos ?_]
    · rw [ih (bs + 1) (by omega)]
      have harith : bs + 1 + g = bs + (g + 1) := by omega
      rw [harith]
    · have hlt : p + bs < ahi := by omega
      refine ⟨hlt, hlt, ?_, ?_⟩
      · rw [mkSM_bjunk]
        exact List.not_mem_nil _
      · rw [mkSM_a, mkSM_b]

/-- With `isjunk = None` the junk set is empty, so the backward junk
extension loop is the identity. -/
theorem extBackJunk_mkSM (a b : List String) (alo blo bi bj bs : Nat) :
    extBackJunk (mkSM a b) alo blo bi bj bs = ⟨bi, bj, bs⟩ := by
  cases bi with
  | zero => rfl
  | succ k =>
    rw [extBackJunk, if_neg]
    intro hc
    rw [mkSM_bjunk] at hc
    exact List.not_mem_nil _ hc.2.2.1

/-- With `isjunk = None` the forward junk extension loop is the
identity. -/
theorem extFwdJunkF_mkSM (a b : List String) (ahi bhi bi bj f bs : Nat) :
    extFwdJunkF (mkSM a b) ahi bhi bi bj f bs = ⟨bi, bj, bs⟩ := by
  cases f with
  | zero => rfl
  | succ g =>
    rw [extFwdJunkF, if_neg]
    intro hc
    rw [mkSM_bjunk] at hc
    exact List.not_mem_nil _ hc.2.2.1

/-- On equal sequences `find_longest_match` over the full range returns
the whole range. -/
theorem findLongestMatch_diag (c : List String) :
    findLongestMatch (mkSM c c) 0 c.length 0 c.length = ⟨0, 0, c.length⟩ := by
  obtain ⟨p, s, heq, -, hps⟩ := mainLoop_diag_of_eq c 0 c.length (Nat.le_refl _)
    c.length 0 [] ⟨0, 0, 0⟩ (Nat.zero_le 0) (Nat.zero_add _)
    (J2_initial (mkSM c c) 0 0 c.length) rfl (Nat.le_refl 0) (Nat.le_refl 0)
    (by intro i2 h1 h2 h3; omega)
  rw [findLongestMatch, Nat.sub_zero, heq]
  dsimp only
  rw [extBack_diag c 0 p p s rfl (Nat.zero_le p)]
  dsimp only
  rw [Nat.sub_zero]
  rw [extFwdF_diag c c.length 0 (c.length - (0 + (s + p))) (s + p) rfl]
  dsimp only
  rw [extBackJunk_mkSM]
  dsimp only
  rw [extFwdJunkF_mkSM]
  have harith : s + p + (c.length - (0 + (s + p))) = c.length := by omega
  rw [harith]

/-- On equal sequences the block recursion finds the single whole-range
block (or nothing when the sequences are empty). -/
theorem mbRec_diag (c : List String) :
    mbRec (mkSM c c) (c.length + c.length + 1) 0 c.length 0 c.length
      = if c.length = 0 then [] else [⟨0, 0, c.length⟩] := by
  rw [mbRec, findLongestMatch_diag]
  dsimp only
  by_cases h : c.length = 0
  · rw [if_pos h, if_pos h]
  · rw [if_neg h, if_neg h, if_neg (by omega : ¬((0:Nat) < 0 ∧ (0:Nat) < 0)),
      if_neg (by omega : ¬(0 + c.length < c.length ∧ 0 + c.length < c.length))]
    simp

/-- On equal sequences the opcodes are a single `equal` opcode spanning
everything (or nothing when the sequences are empty). -/
theorem getOpcodes_diag (c : List String) :
    getOpcodes (mkSM c c)
      = if c.length = 0 then [] else [⟨.equal, 0, c.length, 0, c.length⟩] := by
  rw [getOpcodes, getMatchingBlocks, mkSM_a, mkSM_b, mbRec_diag]
  by_cases h : c.length = 0
  · rw [if_pos h, if_pos h, h]
    rfl
  · rw [if_neg h, if_neg h]
    rw [collapseGo, if_pos ⟨rfl, rfl⟩, collapseGo,
      if_pos (by omega : ¬(0 + c.length = 0))]
    rw [Nat.zero_add]
    rw [show ([⟨0, 0, c.length⟩] : List FMatch) ++ [⟨c.length, c.length, 0⟩]
      = [⟨0, 0, c.length⟩, ⟨c.length, c.length, 0⟩] from rfl]
    rw [opcodesGo]
    rw [if_neg (by omega : ¬((0:Nat) < 0 ∧ (0:Nat) < 0)),
      if_neg (by omega : ¬((0:Nat) < 0)), if_neg (by omega : ¬((0:Nat) < 0)),
      if_pos (by exact h : ((⟨0, 0, c.length⟩ : FMatch)).bsize ≠ 0)]
    rw [opcodesGo]
    rw [if_neg (by omega : ¬(0 + c.length < c.length ∧ 0 + c.length < c.length)),
      if_neg (by omega : ¬(0 + c.length < c.length)),
      if_neg (by omega : ¬(0 + c.length < c.length)),
      if_neg (by simp : ¬((⟨c.length, c.length, 0⟩ : FMatch)).bsize ≠ 0)]
    rw [opcodesGo]
    simp

/-- On equal sequences no opcode group survives the grouping pass: the
single clipped `equal` opcode is discarded as pure context. -/
theorem getGroupedOpcodes_diag (c : List String) :
    getGroupedOpcodes (mkSM c c) 3 = [] := by
  rw [getGroupedOpcodes, getOpcodes_diag]
  by_cases h : c.length = 0
  · rw [if_pos h]
    rfl
  · rw [if_neg h]
    rw [if_neg (by simp :
      ¬([⟨Tag.equal, 0, c.length, 0, c.length⟩] : List Op) = [])]
    show groupGo 3 [] [clipLast 3 (clipHead 3 ⟨.equal, 0, c.length, 0, c.length⟩)] = []
    rw [clipHead, if_pos rfl]
    dsimp only
    rw [clipLast, if_pos rfl]
    dsimp only
    rw [groupGo, if_neg ?_, groupGo, if_neg ?_]
    · intro hc
      exact hc.2 ⟨rfl, rfl⟩
    · intro hc
      have h2 := hc.2
      dsimp only at h2
      omega

/-- `unified_diff` of equal line lists is empty. -/
theorem unified_diff_self (c : List String) (fromfile tofile lineterm : String) :
    unified_diff c c fromfile tofile 3 lineterm = [] := by
  rw [unified_diff]
  rw [getGroupedOpcodes_diag, if_pos rfl]

/-! ### The substituted file: `buggy = backup.set k z` with distinct lines -/

theorem getD_set_self (a : List String) (k : Nat) (z : String) (hk : k < a.length) :
    (a.set k z).getD k "" = z := by
  rw [List.getD_eq_getElem?_getD, List.getElem?_set]
  rw [if_pos rfl, if_pos hk]
  rfl

theorem getD_set_ne (a : List String) (k i : Nat) (z : String) (h : k ≠ i) :
    (a.set k z).getD i "" = a.getD i "" := by
  rw [List.getD_eq_getElem?_getD, List.getElem?_set, if_neg h,
    ← List.getD_eq_getElem?_getD]

theorem getD_mem (a : List String) (i : Nat) (hi : i < a.length) :
    a.getD i "" ∈ a := by
  rw [List.getD_eq_getElem?_getD, List.getElem?_eq_getElem hi]
  exact List.getElem_mem hi

theorem getD_inj_of_nodup (a : List String) (hnd : a.Nodup) (i j : Nat)
    (hi : i < a.length) (hj : j < a.length) (h : a.getD i "" = a.getD j "") : i = j := by
  rw [List.getD_eq_getElem?_getD, List.getElem?_eq_getElem hi,
    List.getD_eq_getElem?_getD, List.getElem?_eq_getElem hj] at h
  have h2 : a.get ⟨i, hi⟩ = a.get ⟨j, hj⟩ := h
  have := (List.Nodup.get_inj_iff hnd).mp h2
  exact congrArg Fin.val this

/-- An ascending list whose members are exactly `r` is `[r]`. -/
theorem sorted_eq_singleton (l : List Nat) (r : Nat) (hs : l.Pairwise (· < ·))
    (hmem : ∀ x, x ∈ l ↔ x = r) : l = [r] := by
  cases l with
  | nil => exact absurd ((hmem r).mpr rfl) (List.not_mem_nil r)
  | cons x xs =>
    have hx : x = r := (hmem x).mp (List.mem_cons_self x xs)
    cases xs with
    | nil => rw [hx]
    | cons y ys =>
      have hy : y = r := (hmem y).mp (List.mem_cons_of_mem x (List.mem_cons_self y ys))
      have hlt := (List.pairwise_cons.mp hs).1 y (List.mem_cons_self y ys)
      rw [hx, hy] at hlt
      exact absurd hlt (lt_irrefl r)

theorem occs_set_ne (a : List String) (z : String) (k : Nat) (hk : k < a.length)
    (hnd : a.Nodup) (hz : z ∉ a) (r : Nat) (hr : r < a.length) (hrk : r ≠ k) :
    occs (a.getD r "") (a.set k z) = [r] := by
  refine sorted_eq_singleton _ r (occs_sorted _ _) ?_
  intro x
  rw [mem_occs, List.length_set]
  constructor
  · rintro ⟨hx, hval⟩
    by_cases hxk : x = k
    · subst hxk
      rw [getD_set_self a x z hk] at hval
      exact absurd (hval ▸ getD_mem a r hr) hz
    · rw [getD_set_ne a k x z (fun he => hxk he.symm)] at hval
      exact getD_inj_of_nodup a hnd x r hx hr hval
  · intro hx
    subst hx
    refine ⟨hr, ?_⟩
    rw [getD_set_ne a k x z (fun he => hrk he.symm)]

theorem occs_set_self_empty (a : List String) (z : String) (k : Nat) (hk : k < a.length)
    (hnd : a.Nodup) (hz : z ∉ a) :
    occs (a.getD k "") (a.set k z) = [] := by
  rw [List.eq_nil_iff_forall_not_mem]
  intro x hx
  rw [mem_occs, List.length_set] at hx
  obtain ⟨hxl, hval⟩ := hx
  by_cases hxk : x = k
  · subst hxk
    rw [getD_set_self a x z hk] at hval
    exact hz (hval ▸ getD_mem a x hxl)
  · rw [getD_set_ne a k x z (fun he => hxk he.symm)] at hval
    exact hxk (getD_inj_of_nodup a hnd x k hxl hk hval)

theorem lookup_P2_ne (a : List String) (z : String) (k : Nat) (hk : k < a.length)
    (hnd : a.Nodup) (hz : z ∉ a) (r : Nat) (hr : r < a.length) (hrk : r ≠ k) :
    List.lookup (a.getD r "") (mkSM a (a.set k z)).b2j = some [r] := by
  rw [lookup_mkSM_b2j, occs_set_ne a z k hk hnd hz r hr hrk, if_neg]
  intro hc
  rcases hc with hc | hc
  · exact List.cons_ne_nil r [] hc
  · exact hc.2 (by simp)

theorem lookup_P2_k (a : List String) (z : String) (k : Nat) (hk : k < a.length)
    (hnd : a.Nodup) (hz : z ∉ a) :
    List.lookup (a.getD k "") (mkSM a (a.set k z)).b2j = none := by
  rw [lookup_mkSM_b2j, occs_set_self_empty a z k hk hnd hz, if_pos (Or.inl rfl)]

/-- Diagonal chain values after a single substitution at `k`: runs
restart right after the substituted row. -/
theorem chain_P2 (a : List String) (z : String) (k : Nat) (hk : k < a.length)
    (hnd : a.Nodup) (hz : z ∉ a) (al : Nat) (hal : al ≤ k) :
    ∀ r, al ≤ r → r < a.length →
      chain (mkSM a (a.set k z)) al al r r = if r ≤ k then r + 1 - al else r - k := by
  intro r
  induction r with
  | zero =>
    intro h1 h2
    have h0 : al = 0 := Nat.le_zero.mp h1
    rw [if_pos (Nat.zero_le k), chain, h0]
  | succ r ih =>
    intro h1 h2
    rw [chain, Nat.add_sub_cancel]
    by_cases halr : al < r + 1
    · by_cases hrk : r = k
      · subst hrk
        have hguard : ¬(al < r + 1 ∧ al < r + 1 ∧
            r ∈ ((List.lookup ((mkSM a (a.set r z)).a.getD r "")
              (mkSM a (a.set r z)).b2j).getD [])) := by
          intro hc
          have hc3 := hc.2.2
          rw [mkSM_a, lookup_P2_k a z r hk hnd hz] at hc3
          exact List.not_mem_nil _ hc3
        rw [if_neg hguard, if_neg (by omega)]
        omega
      · rw [if_pos ?_]
        · rw [ih (by omega) (by omega)]
          by_cases hle : r ≤ k
          · rw [if_pos hle, if_pos (by omega)]
            omega
          · rw [if_neg hle, if_neg (by omega)]
            omega
        · refine ⟨halr, halr, ?_⟩
          rw [mkSM_a, lookup_P2_ne a z k hk hnd hz r (by omega) hrk]
          exact List.mem_singleton.mpr rfl
    · rw [if_neg (fun hc => absurd hc.1 halr), if_pos (by omega)]
      omega

theorem rowLoop_single (blo bhi i j : Nat) (old : List (Nat × Nat)) (best : FMatch)
    (h1 : blo ≤ j) (h2 : j < bhi) :
    rowLoop blo bhi i old [j] [] best
      = ([(j, rowK old j)],
         if best.bsize < rowK old j
           then ⟨i + 1 - rowK old j, j + 1 - rowK old j, rowK old j⟩ else best) := by
  rw [rowLoop_cons, if_neg (by omega), if_neg (by omega)]
  rfl

/-- The exact best block found by the main loop on a window of the
substituted pair: the prefix run `[al, k)` if at least as long as the
suffix run `(k, ah)`, else the suffix run. -/
theorem mainLoop_P2 (a : List String) (z : String) (k : Nat) (hk : k < a.length)
    (hnd : a.Nodup) (hz : z ∉ a) (al ah : Nat) (hal : al ≤ k) (hah : k < ah)
    (hahn : ah ≤ a.length) :
    ∀ (nrows r : Nat) (j2len : List (Nat × Nat)) (best : FMatch),
      al ≤ r → r + nrows = ah →
      J2 (mkSM a (a.set k z)) al al ah r j2len →
      best = (if r - (k+1) > min r k - al then ⟨k+1, k+1, r - (k+1)⟩
        else ⟨al, al, min r k - al⟩) →
      mainLoop (mkSM a (a.set k z)) al ah (List.range' r nrows) j2len best
        = if ah - (k+1) > k - al then ⟨k+1, k+1, ah - (k+1)⟩
          else ⟨al, al, k - al⟩ := by
  intro nrows
  induction nrows with
  | zero =>
    intro r j2len best h1 h2 hJ hbest
    have hr : r = ah := by omega
    subst hr
    show best = _
    rw [hbest]
    have hmin : min r k = k := by omega
    rw [hmin]
  | succ n ih =>
    intro r j2len best h1 h2 hJ hbest
    rw [List.range'_succ, mainLoop_cons]
    by_cases hrk : r = k
    · subst hrk
      have hlkk : List.lookup ((mkSM a (a.set r z)).a.getD r "")
          (mkSM a (a.set r z)).b2j = none := by
        rw [mkSM_a]
        exact lookup_P2_k a z r hk hnd hz
      rw [hlkk]
      refine ih (r + 1) [] best (by omega) (by omega) ?_ ?_
      · intro j
        rw [if_neg]
        · rfl
        · intro hc
          have hc2 := hc.2.1
          rw [Nat.add_sub_cancel, mkSM_a, lookup_P2_k a z r hk hnd hz] at hc2
          exact List.not_mem_nil _ hc2
      · rw [hbest, if_neg (by omega), if_neg (by omega), FMatch.mk.injEq]
        refine ⟨rfl, rfl, by omega⟩
    · have hrn : r < a.length := by omega
      have hlkr : List.lookup ((mkSM a (a.set k z)).a.getD r "")
          (mkSM a (a.set k z)).b2j = some [r] := by
        rw [mkSM_a]
        exact lookup_P2_ne a z k hk hnd hz r hrn hrk
      rw [hlkr]
      simp only [Option.getD_some]
      rw [rowLoop_single al ah r r j2len best h1 (by omega)]
      dsimp only
      have hrowK : rowK j2len r = chain (mkSM a (a.set k z)) al al r r :=
        rowK_eq_chain _ al al ah r j2len hJ h1 r h1 (by omega)
      have hchain := chain_P2 a z k hk hnd hz al hal r h1 hrn
      have hJ2 : J2 (mkSM a (a.set k z)) al al ah (r + 1) [(r, rowK j2len r)] := by
        intro j
        by_cases hjr : j = r
        · subst hjr
          rw [if_pos ?_]
          · have hbq : (j == j) = true := beq_self_eq_true j
            simp only [List.lookup, hbq]
            rw [Nat.add_sub_cancel, hrowK]
          · refine ⟨by omega, ?_, h1, by omega⟩
            rw [Nat.add_sub_cancel, hlkr]
            exact List.mem_singleton.mpr rfl
        · rw [if_neg ?_]
          · have hbq : (j == r) = false := beq_eq_false_iff_ne.mpr hjr
            simp only [List.lookup, hbq]
          · intro hc
            have hc2 := hc.2.1
            rw [Nat.add_sub_cancel, hlkr] at hc2
            exact hjr (List.mem_singleton.mp hc2)
      refine ih (r + 1) _ _ (by omega) (by omega) hJ2 ?_
      rw [hrowK, hchain, hbest]
      by_cases hINV : r - (k+1) > min r k - al
      · rw [if_pos hINV]
        have hrgt : k + 1 < r := by omega
        rw [if_neg (by omega : ¬r ≤ k)]
        rw [if_pos ?_, if_pos (by omega)]
        · rw [FMatch.mk.injEq]
          refine ⟨by omega, by omega, by omega⟩
        · show r - (k+1) < r - k
          omega
      · rw [if_neg hINV]
        by_cases hrlt : r < k
        · rw [if_pos (by omega : r ≤ k)]
          rw [if_pos ?_, if_neg (by omega)]
          · rw [FMatch.mk.injEq]
            refine ⟨by omega, by omega, by omega⟩
          · show min r k - al < r + 1 - al
            omega
        · have hrgt : k < r := by omega
          rw [if_neg (by omega : ¬r ≤ k)]
          by_cases hup : min r k - al < r - k
          · rw [if_pos hup, if_pos (by omega)]
            rw [FMatch.mk.injEq]
            refine ⟨by omega, by omega, by omega⟩
          · rw [if_neg hup, if_neg (by omega)]
            rw [FMatch.mk.injEq]
            refine ⟨rfl, rfl, by omega⟩

theorem extBack_self (m : SM) (alo blo bj bs : Nat) :
    extBack m alo blo alo bj bs = ⟨alo, bj, bs⟩ := by
  cases alo with
  | zero => rfl
  | succ s =>
    rw [extBack, if_neg]
    intro hc
    exact absurd hc.1 (lt_irrefl (s + 1))

theorem extBack_stop (m : SM) (alo blo bi bj bs : Nat)
    (h : ¬(m.a.getD bi "" = m.b.getD (bj - 1) "")) :
    extBack m alo blo (bi + 1) bj bs = ⟨bi + 1, bj, bs⟩ := by
  rw [extBack, if_neg]
  intro hc
  exact h hc.2.2.2

theorem extFwdF_stop (m : SM) (ahi bhi bi bj f bs : Nat)
    (h : ¬(bi + bs < ahi ∧ bj + bs < bhi ∧ m.b.getD (bj + bs) "" ∉ m.bjunk ∧
      m.a.getD (bi + bs) "" = m.b.getD (bj + bs) "")) :
    extFwdF m ahi bhi bi bj f bs = ⟨bi, bj, bs⟩ := by
  cases f with
  | zero => rfl
  | succ g => rw [extFwdF, if_neg h]

/-- `find_longest_match` on a window of the substituted pair returns the
longer of the prefix run and the suffix run around the changed row (the
prefix on ties); the extension loops cannot cross the changed row. -/
theorem findLongestMatch_P2 (a : List String) (z : String) (k : Nat)
    (hk : k < a.length) (hnd : a.Nodup) (hz : z ∉ a) (al ah : Nat)
    (hal : al ≤ k) (hah : k < ah) (hahn : ah ≤ a.length) :
    findLongestMatch (mkSM a (a.set k z)) al ah al ah
      = if ah - (k+1) > k - al then ⟨k+1, k+1, ah - (k+1)⟩
        else ⟨al, al, k - al⟩ := by
  have hbest0 : (⟨al, al, 0⟩ : FMatch)
      = (if al - (k+1) > min al k - al then ⟨k+1, k+1, al - (k+1)⟩
        else ⟨al, al, min al k - al⟩) := by
    rw [if_neg (by omega), FMatch.mk.injEq]
    refine ⟨rfl, rfl, by omega⟩
  have hmain := mainLoop_P2 a z k hk hnd hz al ah hal hah hahn (ah - al) al []
    ⟨al, al, 0⟩ (Nat.le_refl al) (by omega) (J2_initial _ al al ah) hbest0
  rw [findLongestMatch, hmain]
  have hka : a.getD k "" ≠ z := fun he => hz (he ▸ getD_mem a k hk)
  by_cases hcase : ah - (k+1) > k - al
  · rw [if_pos hcase]
    dsimp only
    rw [extBack_stop _ al al k (k+1) (ah - (k+1)) ?_]
    · dsimp only
      rw [extFwdF_stop _ ah ah (k+1) (k+1) _ (ah - (k+1)) ?_]
      · dsimp only
        rw [extBackJunk_mkSM]
        dsimp only
        rw [extFwdJunkF_mkSM]
      · intro hc
        have := hc.1
        omega
    · rw [mkSM_a, mkSM_b, Nat.add_sub_cancel, getD_set_self a k z hk]
      exact hka
  · rw [if_neg hcase]
    dsimp only
    rw [extBack_self]
    dsimp only
    rw [extFwdF_stop _ ah ah al al _ (k - al) ?_]
    · dsimp only
      rw [extBackJunk_mkSM]
      dsimp only
      rw [extFwdJunkF_mkSM]
    · intro hc
      have hc4 := hc.2.2.2
      have hix : al + (k - al) = k := by omega
      rw [hix, mkSM_a, mkSM_b, getD_set_self a k z hk] at hc4
      exact hka hc4

/-- The block recursion of the substituted pair on a diagonal window:
the prefix run, then the suffix run. -/
theorem mbRec_P2 (a : List String) (z : String) (k : Nat)
    (hk : k < a.length) (hnd : a.Nodup) (hz : z ∉ a) :
    ∀ (f al ah : Nat), al ≤ k → k < ah → ah ≤ a.length → ah - al + 1 ≤ f →
      mbRec (mkSM a (a.set k z)) f al ah al ah
        = (if al < k then [⟨al, al, k - al⟩] else [])
          ++ (if k + 1 < ah then [⟨k+1, k+1, ah - (k+1)⟩] else []) := by
  intro f
  induction f with
  | zero =>
    intro al ah h1 h2 h3 hf
    exact absurd hf (by omega)
  | succ g ih =>
    intro al ah h1 h2 h3 hf
    rw [mbRec, findLongestMatch_P2 a z k hk hnd hz al ah h1 h2 h3]
    by_cases hcase : ah - (k+1) > k - al
    · rw [if_pos hcase]
      dsimp only
      rw [if_neg (by omega : ¬(ah - (k+1) = 0)),
        if_pos (by omega : al < k + 1 ∧ al < k + 1),
        ih al (k+1) h1 (by omega) (by omega) (by omega),
        if_neg (by omega : ¬(k + 1 + (ah - (k + 1)) < ah ∧
          k + 1 + (ah - (k + 1)) < ah)),
        if_neg (lt_irrefl (k+1)), if_pos (by omega : k + 1 < ah)]
      simp
    · rw [if_neg hcase]
      dsimp only
      by_cases hal2 : al < k
      · rw [if_neg (by omega : ¬(k - al = 0)),
          if_neg (by omega : ¬(al < al ∧ al < al)),
          if_pos (by omega : al + (k - al) < ah ∧ al + (k - al) < ah)]
        have hix : al + (k - al) = k := by omega
        rw [hix, ih k ah (Nat.le_refl k) h2 h3 (by omega),
          if_neg (lt_irrefl k), if_pos hal2]
        simp
      · rw [if_pos (by omega : k - al = 0),
          if_neg (by omega : ¬(al < k)), if_neg (by omega : ¬(k + 1 < ah))]
        rfl

/-- The opcodes of the substituted pair: an equal prefix (when any), the
one-line replace, and an equal suffix (when any).  When the changed line
is the last one, `k + 1 = a.length`, so the replace opcode still reads
`⟨replace, k, k+1, k, k+1⟩`. -/
theorem getOpcodes_P2 (a : List String) (z : String) (k : Nat)
    (hk : k < a.length) (hnd : a.Nodup) (hz : z ∉ a) :
    getOpcodes (mkSM a (a.set k z))
      = (if 0 < k then [⟨.equal, 0, k, 0, k⟩] else [])
        ++ [⟨.replace, k, k + 1, k, k + 1⟩]
        ++ (if k + 1 < a.length then
            [⟨.equal, k + 1, a.length, k + 1, a.length⟩] else []) := by
  rw [getOpcodes, getMatchingBlocks, mkSM_a, mkSM_b, List.length_set,
    mbRec_P2 a z k hk hnd hz (a.length + a.length + 1) 0 a.length (Nat.zero_le k)
      hk (Nat.le_refl _) (by omega)]
  have f4 : k < a.length := hk
  by_cases h1 : 0 < k
  · by_cases h2 : k + 1 < a.length
    · simp only [if_pos h1, if_pos h2, Nat.sub_zero]
      have f1 : k ≠ 0 := by omega
      have f2 : a.length - (k + 1) ≠ 0 := by omega
      have f3 : k + 1 + (a.length - (k + 1)) = a.length := by omega
      simp [collapseGo, opcodesGo, f1, f2, f3, f4]
    · simp only [if_pos h1, if_neg h2, Nat.sub_zero]
      have f1 : k ≠ 0 := by omega
      have f5 : k + 1 = a.length := by omega
      simp [collapseGo, opcodesGo, f1, f4, f5]
  · by_cases h2 : k + 1 < a.length
    · simp only [if_neg h1, if_pos h2, Nat.sub_zero]
      have f0 : k = 0 := by omega
      subst f0
      have f2 : a.length - 1 ≠ 0 := by omega
      have f3 : 1 + (a.length - 1) = a.length := by omega
      simp [collapseGo, opcodesGo, f2, f3, f4]
    · simp only [if_neg h1, if_neg h2, Nat.sub_zero]
      have f0 : k = 0 := by omega
      subst f0
      have f5 : a.length = 1 := by omega
      simp [collapseGo, opcodesGo, f5]

/-- Grouped opcodes of the substituted pair: one group, holding at most
three clipped context lines on each side of the replace. -/
theorem getGroupedOpcodes_P2 (a : List String) (z : String) (k : Nat)
    (hk : k < a.length) (hnd : a.Nodup) (hz : z ∉ a) :
    getGroupedOpcodes (mkSM a (a.set k z)) 3
      = [(if 0 < k then [⟨.equal, k - 3, k, k - 3, k⟩] else [])
          ++ [⟨.replace, k, k + 1, k, k + 1⟩]
          ++ (if k + 1 < a.length then
              [⟨.equal, k + 1, min a.length (k + 4), k + 1, min a.length (k + 4)⟩]
              else [])] := by
  rw [getGroupedOpcodes, getOpcodes_P2 a z k hk hnd hz]
  have g1 : ¬(6 < k - (k - 3)) := by omega
  have g2 : ¬(6 < min a.length (k + 4) - (k + 1)) := by omega
  by_cases h1 : 0 < k
  · by_cases h2 : k + 1 < a.length
    · simp only [if_pos h1, if_pos h2]
      simp [modifyHead, modifyLast, clipHead, clipLast, groupGo, Nat.zero_max, g1, g2]
    · simp only [if_pos h1, if_neg h2]
      simp [modifyHead, modifyLast, clipHead, clipLast, groupGo, Nat.zero_max, g1]
  · by_cases h2 : k + 1 < a.length
    · simp only [if_neg h1, if_pos h2]
      simp [modifyHead, modifyLast, clipHead, clipLast, groupGo, Nat.zero_max, g2]
    · simp only [if_neg h1, if_neg h2]
      simp [modifyHead, modifyLast, clipHead, clipLast, groupGo, Nat.zero_max]

theorem sliceL_one (l : List String) (k : Nat) (hk : k < l.length) :
    sliceL l k (k + 1) = [l.getD k ""] := by
  rw [sliceL, Nat.add_sub_cancel_left]
  have hd : l.drop k = l.getD k "" :: l.drop (k + 1) := by
    rw [List.getD_eq_getElem?_getD, List.getElem?_eq_getElem hk]
    exact List.drop_eq_getElem_cons hk
  rw [hd]
  rfl

/-- The unified diff of the substituted pair: two header lines, one hunk
header, then at most three context lines, the removed old line, the
added new line, and at most three more context lines. -/
theorem unified_diff_P2 (a : List String) (z : String) (k : Nat)
    (hk : k < a.length) (hnd : a.Nodup) (hz : z ∉ a) (ff tf : String) :
    unified_diff a (a.set k z) ff tf 3 "\n"
      = ("--- " ++ ff ++ "\n") :: ("+++ " ++ tf ++ "\n")
        :: ("@@ -" ++ formatRangeUnified (k - 3) (min a.length (k + 4)) ++ " +"
            ++ formatRangeUnified (k - 3) (min a.length (k + 4)) ++ " @@" ++ "\n")
        :: ((sliceL a (k - 3) k).map (fun l => " " ++ l)
            ++ ("-" ++ a.getD k "") :: ("+" ++ z)
            :: (sliceL a (k + 1) (min a.length (k + 4))).map (fun l => " " ++ l)) := by
  rw [unified_diff, getGroupedOpcodes_P2 a z k hk hnd hz]
  rw [if_neg (by simp)]
  have hsk := sliceL_one a k hk
  have hskz : sliceL (a.set k z) k (k + 1) = [z] := by
    rw [sliceL_one (a.set k z) k (by rw [List.length_set]; exact hk),
      getD_set_self a k z hk]
  by_cases h1 : 0 < k
  · by_cases h2 : k + 1 < a.length
    · simp only [if_pos h1, if_pos h2]
      simp [groupLines, opLines, List.getLastD, hsk, hskz]
    · simp only [if_pos h1, if_neg h2]
      have hm : min a.length (k + 4) = k + 1 := by omega
      rw [hm]
      have hs2 : sliceL a (k + 1) (k + 1) = [] := by
        rw [sliceL, Nat.sub_self]
        rfl
      simp [groupLines, opLines, List.getLastD, hsk, hskz, hs2]
  · have f0 : k = 0 := by omega
    subst f0
    have hp : sliceL a (0 - 3) 0 = [] := rfl
    by_cases h2 : 0 + 1 < a.length
    · simp only [if_neg h1, if_pos h2]
      simp [groupLines, opLines, List.getLastD, hsk, hskz, hp]
    · simp only [if_neg h1, if_neg h2]
      have hm : min a.length (0 + 4) = 0 + 1 := by omega
      rw [hm]
      have hs2 : sliceL a (0 + 1) (0 + 1) = [] := by
        rw [sliceL, Nat.sub_self]
        rfl
      simp [groupLines, opLines, List.getLastD, hsk, hskz, hp, hs2]

theorem head_data_append (s t : String) (c : Char) (h : s.data.head? = some c) :
    (s ++ t).data.head? = some c := by
  show (s.data ++ t.data).head? = some c
  cases hs : s.data with
  | nil =>
    rw [hs] at h
    exact absurd h (by simp)
  | cons x xs =>
    rw [hs] at h
    rw [List.cons_append]
    exact h

theorem filter_map_pre (pre : String) (c0 : Char) (h : pre.data.head? = some c0)
    (p : Char) (hne : c0 ≠ p) (xs : List String) :
    (xs.map (fun l => pre ++ l)).filter
      (fun l => decide (l.data.head? = some p)) = [] := by
  induction xs with
  | nil => rfl
  | cons x xs ih =>
    have hd : (decide ((pre ++ x).data.head? = some p)) = false := by
      apply decide_eq_false
      rw [head_data_append pre x c0 h]
      intro he
      exact hne (Option.some.inj he)
    simp only [List.map_cons, List.filter_cons, hd, Bool.false_eq_true, if_false]
    exact ih

/-- In a hunk whose only non-context lines are one removed and one added
line, the added lines are exactly the new line. -/
theorem addedLines_shape (hdr : String) (h0 : hdr.data.head? = some '@')
    (ctx1 ctx2 : List String) (old new : String) :
    addedLines (hdr :: (ctx1.map (fun l => " " ++ l)
        ++ ("-" ++ old) :: ("+" ++ new) :: ctx2.map (fun l => " " ++ l)))
      = ["+" ++ new] := by
  have dh : decide (hdr.data.head? = some '+') = false := by
    apply decide_eq_false
    rw [h0]
    simp
  have d2 : decide (("-" ++ old).data.head? = some '+') = false := by
    apply decide_eq_false
    rw [head_data_append "-" old '-' rfl]
    simp
  have d3 : decide (("+" ++ new).data.head? = some '+') = true :=
    decide_eq_true (head_data_append "+" new '+' rfl)
  simp only [addedLines, List.filter_cons, List.filter_append, dh, d2, d3,
    Bool.false_eq_true, if_false, if_true,
    filter_map_pre " " ' ' rfl '+' (by decide)]
  rfl

/-- In the same hunk shape, the removed lines are exactly the old
line. -/
theorem removedLines_shape (hdr : String) (h0 : hdr.data.head? = some '@')
    (ctx1 ctx2 : List String) (old new : String) :
    removedLines (hdr :: (ctx1.map (fun l => " " ++ l)
        ++ ("-" ++ old) :: ("+" ++ new) :: ctx2.map (fun l => " " ++ l)))
      = ["-" ++ old] := by
  have dh : decide (hdr.data.head? = some '-') = false := by
    apply decide_eq_false
    rw [h0]
    simp
  have d2 : decide (("-" ++ old).data.head? = some '-') = true :=
    decide_eq_true (head_data_append "-" old '-' rfl)
  have d3 : decide (("+" ++ new).data.head? = some '-') = false := by
    apply decide_eq_false
    rw [head_data_append "+" new '+' rfl]
    simp
  simp only [removedLines, List.filter_cons, List.filter_append, dh, d2, d3,
    Bool.false_eq_true, if_false, if_true,
    filter_map_pre " " ' ' rfl '-' (by decide)]
  rfl

/-- C8 (amended): `diff_buggy()` on a buggy file whose content equals
the backup yields an empty diff; when the backup's lines are pairwise
distinct and exactly one line is replaced by a line not occurring in the
backup, the produced diff is labelled `a/<buggy>` and `b/<buggy>` and
its only added and removed lines are the new and old versions of the
changed line. -/
theorem diff_buggy_empty_and_single_line (p : ProjectData) (w : World)
    (backup : List String) (hback : w.fs (backupPath p) = some backup) :
    (w.fs (buggyPath p) = some backup → diff_buggy p w = some []) ∧
    (∀ (z : String) (k : Nat), w.fs (buggyPath p) = some (backup.set k z) →
      k < backup.length → backup.Nodup → z ∉ backup →
      ∃ body, diff_buggy p w
          = some (("--- " ++ joinS "a" p.buggy ++ "\n")
            :: ("+++ " ++ joinS "b" p.buggy ++ "\n") :: body)
        ∧ addedLines body = ["+" ++ z]
        ∧ removedLines body = ["-" ++ backup.getD k ""]) := by
  constructor
  · intro hbug
    rw [diff_buggy, hbug, hback]
    show some (unified_diff backup backup (joinS "a" p.buggy)
      (joinS "b" p.buggy) 3 "\n") = some []
    rw [unified_diff_self]
  · intro z k hbug hk hnd hz
    rw [diff_buggy, hbug, hback]
    have hud := unified_diff_P2 backup z k hk hnd hz (joinS "a" p.buggy)
      (joinS "b" p.buggy)
    refine ⟨("@@ -" ++ formatRangeUnified (k - 3) (min backup.length (k + 4)) ++ " +"
        ++ formatRangeUnified (k - 3) (min backup.length (k + 4)) ++ " @@" ++ "\n")
        :: ((sliceL backup (k - 3) k).map (fun l => " " ++ l)
          ++ ("-" ++ backup.getD k "") :: ("+" ++ z)
          :: (sliceL backup (k + 1) (min backup.length (k + 4))).map
              (fun l => " " ++ l)), ?_, ?_, ?_⟩
    · show some (unified_diff backup (backup.set k z) (joinS "a" p.buggy)
        (joinS "b" p.buggy) 3 "\n") = _
      rw [hud]
    · exact addedLines_shape _ (by
        apply head_data_append
        apply head_data_append
        apply head_data_append
        apply head_data_append
        apply head_data_append
        rfl) _ _ _ _
    · exact removedLines_shape _ (by
        apply head_data_append
        apply head_data_append
        apply head_data_append
        apply head_data_append
        apply head_data_append
        rfl) _ _ _ _

/-- A project fixture for the diff specifications. -/
def pDiffC : ProjectData := ⟨false, "/d", "f", "make", none, []⟩

/-- A world whose buggy file differs from its backup in exactly one line
but whose lines repeat: backup `a a a a`, buggy `a b a a`. -/
def wDiffC : World :=
  ⟨fun q => if q = "/d/f" then some ["a", "b", "a", "a"] else
    if q = "/d/f.backup" then some ["a", "a", "a", "a"] else none, 0, []⟩

/-- A world whose buggy file differs from its pairwise-distinct backup
in exactly one line, replaced by a fresh line. -/
def wDiffW : World :=
  ⟨fun q => if q = "/d/f" then some ["l1", "z9", "l3"] else
    if q = "/d/f.backup" then some ["l1", "l2", "l3"] else none, 0, []⟩

/-- With repeated lines, a single-line change (line 2: `a` became `b`)
produces a diff whose added lines are `+a, +b` — not only the changed
line: the greedy matcher aligns the later duplicates instead. -/
theorem diff_buggy_repeated_lines_not_minimal :
    ∃ body, diff_buggy pDiffC wDiffC
        = some (("--- " ++ joinS "a" pDiffC.buggy ++ "\n")
          :: ("+++ " ++ joinS "b" pDiffC.buggy ++ "\n") :: body)
      ∧ addedLines body ≠ ["+" ++ "b"] :=
  ⟨["@@ -1,4 +1,4 @@\n", "+a", "+b", " a", " a", "-a", "-a"],
    by decide, by decide⟩

theorem diff_buggy_empty_and_single_line_witness :
    wDiffW.fs (backupPath pDiffC) = some ["l1", "l2", "l3"] ∧
    (∃ body, diff_buggy pDiffC wDiffW
        = some (("--- " ++ joinS "a" pDiffC.buggy ++ "\n")
          :: ("+++ " ++ joinS "b" pDiffC.buggy ++ "\n") :: body)
      ∧ addedLines body = ["+" ++ "z9"]
      ∧ removedLines body = ["-" ++ (["l1", "l2", "l3"] : List String).getD 1 ""]) :=
  ⟨by decide,
    (diff_buggy_empty_and_single_line pDiffC wDiffW ["l1", "l2", "l3"] (by decide)).2
      "z9" 1 (by decide) (by decide) (by decide) (by decide)⟩

end Angelix
